import Mathlib

/-!
Verification development for the harvest-notion-sync repository.

The program continuously reconciles work hours recorded in Harvest with task
cards held in Notion: entries are matched to cards by fuzzy client/task name
comparison, hours are aggregated over the parent/child card graph, and totals
are written back through a priority-aware, rate-limited request scheduler with
memoizing TTL caches and a retry wrapper.

This file shallowly embeds the relevant parts of the current source
(src/NotionCard.ts, src/notion.ts, src/limits.ts, src/harvest.ts,
src/harvest-api.ts, src/util.ts) and proves properties about them. Numbers are
embedded as rationals (ℚ); `Math.round(x * 100) / 100` becomes `round2`. The
exact ℚ arithmetic abstracts from IEEE-754 binary64 rounding error: it is
faithful for the termination, registry, frame and scheduling properties
proved here, but the outcome of a `===` comparison between doubles (the skip
test in `update`) can differ from its exact-arithmetic counterpart, so no
theorem below rests on which branch of that comparison is taken.
JavaScript strings are embedded as `List Char` internally (the core `String`
operations are not kernel-reducible) with `String` at the boundary. Remote
services are oracles packaged in a `World` record; the mutable in-process
state (the `NotionCard.allCards` registry) is passed explicitly. Cooperative
(single-threaded, await-interleaved) execution is sequentialized; `Promise.all`
over a list of async operations is modelled as a left-to-right fold, which is
faithful up to the reordering the event loop may introduce between suspension
points.
-/

namespace HarvestNotionSync

/-! ## src/util.ts -/

/-- Embeds JavaScript `String.prototype.trim` on the character list (the JS
version also trims a few exotic Unicode spaces; `Char.isWhitespace` covers the
ASCII whitespace relevant here). -/
def jsTrim (cs : List Char) : List Char :=
  ((cs.dropWhile Char.isWhitespace).reverse.dropWhile Char.isWhitespace).reverse

/-- Embeds JavaScript `String.prototype.toLowerCase` (ASCII range; the final
alphanumeric filter in `taskNamesMatch` keeps only ASCII anyway). -/
def jsToLower (cs : List Char) : List Char := cs.map Char.toLower

/-- Embeds JavaScript `String.prototype.replaceAll` with a literal pattern:
leftmost match is replaced and scanning resumes after the replacement. Fueled
by the input length so that the recursion is structural (each step consumes at
least one character when the pattern is nonempty). -/
def replaceAllChars (pat repl : List Char) : Nat → List Char → List Char
  | 0, l => l
  | _, [] => []
  | f+1, c :: rest =>
    if pat.isPrefixOf (c :: rest) ∧ pat ≠ [] then
      repl ++ replaceAllChars pat repl f ((c :: rest).drop pat.length)
    else c :: replaceAllChars pat repl f rest

/-- Embeds `processClientName` (src/util.ts lines 1-13): trim, lowercase, a
hand-curated alias table, and the rewrite of every "new form" to "newform". -/
def processClientNameChars (name : List Char) : List Char :=
  let basic := jsToLower (jsTrim name)
  if basic = "reform internal tasks".data then "reform collective".data
  else if basic = "fluid (product)".data then "fluid".data
  else if basic = "jillion llc".data then "century".data
  else if basic = "inside milk".data then "milk inside".data
  else replaceAllChars "new form".data "newform".data basic.length basic

/-- String-boundary version of `processClientNameChars`. -/
def processClientName (name : String) : String := ⟨processClientNameChars name.data⟩

/-- Embeds `clientNamesMatch` (src/util.ts lines 15-20): after
`processClientName`, `a.startsWith(b) || b.startsWith(a)`; JS `a.startsWith(b)`
holds when `b` is a prefix of `a`. -/
def clientNamesMatch (nameA nameB : String) : Bool :=
  let a := processClientNameChars nameA.data
  let b := processClientNameChars nameB.data
  b.isPrefixOf a || a.isPrefixOf b

/-- Position just after the first occurrence of `cl`, when there is one. Used
to embed the regexes `/\[[^\]]*\]/g` and `/\([^)]*\)/g`: a match starting at an
opening delimiter extends exactly through the first closing delimiter after
it. -/
def dropThrough (cl : Char) : List Char → Option (List Char)
  | [] => none
  | c :: rest => if c = cl then some rest else dropThrough cl rest

/-- Embeds one global regex replacement pass `/op[^cl]*cl/g ↦ ""` as used in
`taskNamesMatch`: scanning left to right, an opening delimiter with a later
closing delimiter deletes everything through the first such closer; an opener
with no closer is kept verbatim. Fueled by the input length so that the
recursion is structural. -/
def stripDelimGo (op cl : Char) : Nat → List Char → List Char
  | 0, l => l
  | _+1, [] => []
  | f+1, c :: rest =>
    if c = op then
      match dropThrough cl rest with
      | some after => stripDelimGo op cl f after
      | none => c :: stripDelimGo op cl f rest
    else c :: stripDelimGo op cl f rest

/-- Runs `stripDelimGo` with enough fuel for the whole input. -/
def stripDelim (op cl : Char) (cs : List Char) : List Char :=
  stripDelimGo op cl cs.length cs

/-- Embeds `name.trim().split(/\r?\n/)[0]`: the characters before the first
line feed, with an immediately preceding carriage return (part of the
separator) removed; a string with no line feed is returned whole. -/
def firstLineChars (cs : List Char) : List Char :=
  let before := cs.takeWhile (fun c => c ≠ '\n')
  if before.length = cs.length then before
  else if before.getLast? = some '\r' then before.dropLast else before

/-- Embeds the `normalize` closure inside `taskNamesMatch` (src/util.ts lines
34-40): take only the first line of the trimmed note, strip inline `[...]` and
`(...)` segments, lowercase, and keep only the characters matching
`[a-z0-9]`. -/
def normalizeChars (name : List Char) : List Char :=
  let firstLine := firstLineChars (jsTrim name)
  let withoutInlineDetails := stripDelim '(' ')' (stripDelim '[' ']' firstLine)
  (withoutInlineDetails.map Char.toLower).filter (fun c => c.isLower || c.isDigit)

/-- String-boundary version of `normalizeChars`. -/
def normalize (name : String) : String := ⟨normalizeChars name.data⟩

/-- Embeds `taskNamesMatch` (src/util.ts lines 22-43). The guard
`if (!nameA || !nameB) return false` also fires in JS for the empty string,
which `String.isEmpty` captures. -/
def taskNamesMatch (nameA nameB : String) : Bool :=
  if nameA.isEmpty || nameB.isEmpty then false
  else normalize nameA == normalize nameB

/-! ## Numbers

Hours are embedded as rationals. `Math.round` rounds half toward positive
infinity, exactly as Mathlib `round` (both are `⌊x + 1/2⌋`). -/

/-- Embeds `Math.round(hours * 100) / 100` (src/notion.ts line 194,
src/harvest.ts line 178). -/
def round2 (q : ℚ) : ℚ := (round (q * 100) : ℚ) / 100

/-- A value with at most two decimal places, the form every hours figure
produced by `getHoursByName` has (it rounds its result with `round2`). -/
def Round2 (q : ℚ) : Prop := ∃ z : ℤ, q = (z : ℚ) / 100

/-! ## Data model: src/NotionCard.ts and src/notion.ts

`CardData` is the result of `cardSchema.safeParse` on a retrieved page: the
"Parent task" and "Sub-tasks" relation id lists, the joined "Task name" title,
the "Project" relation, and the "Time Spent" rich text. The rich text is
abstracted to the hours value its first whitespace-separated token parses to:
the code writes `` `${roundedHours} Hours Spent\t` `` and reads it back with
`Number.parseFloat(text.trim().split(" ").at(0))`, which recovers exactly the
rounded number that was written; `none` stands for text whose first token
parses to `NaN` (`NaN === x` is false for every `x`, and `none = some x`
matches that). Page ids are embedded as naturals. -/

structure CardData where
  parentIds : List Nat
  childIds : List Nat
  title : String
  projectIds : List Nat
  timeSpent : Option ℚ
  deriving DecidableEq

/-- Result of `clientSchema.safeParse`: the joined "Project Name" title. -/
structure ClientData where
  name : String
  deriving DecidableEq

/-- One `NotionCard` instance: `notionId`, the trimmed `taskName` and
`projectName`, and the two mutable hour fields. -/
structure Card where
  notionId : Nat
  taskName : String
  projectName : String
  localHours : ℚ
  childHours : ℚ
  deriving DecidableEq

/-- The process-wide `NotionCard.allCards` registry, an insertion-ordered
association list mirroring a JS `Record<string, NotionCard>` (`Object.values`
enumerates string keys in insertion order). -/
abbrev Registry := List (Nat × Card)

/-- The remote services, as oracles: `pages` is `getPage` followed by
`cardSchema.safeParse` (`none` covers both a failed fetch and a parse
failure), `clientPages` likewise with `clientSchema`, `hoursByName` is
`getHoursByName` (already rounded to 2 decimals by the source), `clientQuery`
is the client-database query result and `taskQuery` the task-database query
filtered by a list of client ids, both as lists of `safeParse` outcomes
carrying the record id. -/
structure World where
  pages : Nat → Option CardData
  clientPages : Nat → Option ClientData
  hoursByName : String → String → ℚ
  clientQuery : List (Option (Nat × ClientData))
  taskQuery : List Nat → List (Option (Nat × CardData))

/-- Externally visible remote operations, recorded as events: a page
retrieval through `getPage`, a database query through `queryDatabase`, an
hours write through `updateHours`, and an error-marker write through
`sendError`. -/
inductive Event where
  | fetchPage (id : Nat)
  | queryDb
  | writeHours (id : Nat) (hours : ℚ)
  | writeError (id : Nat)
  deriving DecidableEq

/-- Lookup `allCards[id]`. -/
def regGet : Registry → Nat → Option Card
  | [], _ => none
  | (k2, c) :: rest, k => if k2 = k then some c else regGet rest k

/-- Assignment `allCards[id] = card`: overwrite in place, or append a fresh
key (JS object insertion-order semantics). -/
def regSet : Registry → Nat → Card → Registry
  | [], k, c => [(k, c)]
  | (k2, c2) :: rest, k, c =>
    if k2 = k then (k, c) :: rest else (k2, c2) :: regSet rest k c

/-- Mutation of a field of the instance stored at `k` (e.g.
`this.localHours = ...`; the registry holds the very instance being
mutated). -/
def regModify : Registry → Nat → (Card → Card) → Registry
  | [], _, _ => []
  | (k2, c2) :: rest, k, f =>
    if k2 = k then (k2, f c2) :: rest else (k2, c2) :: regModify rest k f

/-- Keys of the registry are pairwise distinct; the "at most one instance per
workspace record id" invariant. -/
def nodupKeys (st : Registry) : Prop := (st.map (fun e => e.1)).Nodup

/-- Registry well-formedness: each stored instance carries the id it is
registered under (the constructor runs `NotionCard.allCards[card.id] = this`
with `this.notionId = card.id`). -/
def regWF (st : Registry) : Prop := ∀ k c, regGet st k = some c → c.notionId = k

/-- The `NotionCard` constructor (src/NotionCard.ts lines 61-88): trims the
joined titles, takes `initialHours ?? 0`, and registers the instance. -/
def newCardFrom (cardId : Nat) (card : CardData) (client : ClientData)
    (initialHours : ℚ) : Card :=
  { notionId := cardId, taskName := ⟨jsTrim card.title.data⟩,
    projectName := ⟨jsTrim client.name.data⟩,
    localHours := initialHours, childHours := 0 }

/-- Embeds the create-by-id half of `NotionCard.getOrCreate`
(src/NotionCard.ts lines 174-207): a registry hit returns the cached instance
immediately; otherwise the page is fetched and parsed, its first "Project"
relation resolved and parsed, initial hours are looked up with the untrimmed
joined titles, and a new instance is constructed (which registers itself).
Every failure returns `null`. -/
def getOrCreateById (w : World) (st : Registry) (id : Nat) :
    Registry × Option Card × List Event :=
  match regGet st id with
  | some c => (st, some c, [])
  | none =>
    match w.pages id with
    | none => (st, none, [Event.fetchPage id])
    | some card =>
      match card.projectIds.head? with
      | none => (st, none, [Event.fetchPage id])
      | some projectId =>
        match w.clientPages projectId with
        | none => (st, none, [Event.fetchPage id, Event.fetchPage projectId])
        | some client =>
          let c := newCardFrom id card client (w.hoursByName card.title client.name)
          (regSet st id c, some c, [Event.fetchPage id, Event.fetchPage projectId])

/-- Sequentialized `Promise.all(ids.map(id => NotionCard.getOrCreate({id})))`
as used for both the "Sub-tasks" and the "Parent task" relation lists. -/
def getOrCreateAll (w : World) : Registry → List Nat → Registry × List (Option Card) × List Event
  | st, [] => (st, [], [])
  | st, id :: rest =>
    let r1 := getOrCreateById w st id
    let r2 := getOrCreateAll w r1.1 rest
    (r2.1, r1.2.1 :: r2.2.1, r1.2.2 ++ r2.2.2)

/-- The registry scan opening the create-by-name half of
`NotionCard.getOrCreate` (src/NotionCard.ts lines 212-218):
`Object.values(NotionCard.allCards).find(...)` with the task-name and
client-name matchers. -/
def scanRegistry (st : Registry) (name project : String) : Option Card :=
  (st.map (fun e => e.2)).find? (fun card =>
    taskNamesMatch card.taskName name && clientNamesMatch card.projectName project)

/-- Client records matching the requested project (src/NotionCard.ts lines
220-236): parse successes of the client-database query filtered by
`clientNamesMatch`. -/
def matchingClients (w : World) (project : String) : List (Nat × ClientData) :=
  (w.clientQuery.filterMap id).filter (fun cl => clientNamesMatch cl.2.name project)

/-- Task records matching the requested name (src/NotionCard.ts lines
242-265): parse successes of the task-database query (filtered remotely by
the matching client ids) filtered by `taskNamesMatch`. -/
def matchingCards (w : World) (clients : List (Nat × ClientData)) (name : String) :
    List (Nat × CardData) :=
  ((w.taskQuery (clients.map (fun cl => cl.1))).filterMap id).filter
    (fun tc => taskNamesMatch tc.2.title name)

/-- Embeds the create-by-name half of `NotionCard.getOrCreate`
(src/NotionCard.ts lines 209-304): scan the registry first; query clients; on
zero matching clients warn and return `null`; query tasks; on more than one
matching card send an error marker into every one of them and return `null`;
on zero matching cards, or when the chosen card's project is not among the
matched clients, warn and return `null`; otherwise construct the instance
(no `initialHours`, so `localHours` starts at 0). -/
def getOrCreateByName (w : World) (st : Registry) (name project : String) :
    Registry × Option Card × List Event :=
  match scanRegistry st name project with
  | some c => (st, some c, [])
  | none =>
    let clients := matchingClients w project
    if clients.isEmpty then (st, none, [Event.queryDb])
    else
      let cards := matchingCards w clients name
      if 1 < cards.length then
        (st, none, [Event.queryDb, Event.queryDb] ++ cards.map (fun tc => Event.writeError tc.1))
      else
        match cards.head? with
        | none => (st, none, [Event.queryDb, Event.queryDb])
        | some tc =>
          match clients.find? (fun cl => tc.2.projectIds.head? = some cl.1) with
          | none => (st, none, [Event.queryDb, Event.queryDb])
          | some cl =>
            let c := newCardFrom tc.1 tc.2 cl.2 0
            (regSet st tc.1 c, some c, [Event.queryDb, Event.queryDb])

/-- Whether the create-by-id path can construct a card from the world alone:
the page parses, it has a first "Project" relation, and that project page
parses. Independent of the registry; used to reason about which failures are
permanent. -/
def resolvableW (w : World) (k : Nat) : Bool :=
  match w.pages k with
  | none => false
  | some card =>
    match card.projectIds.head? with
    | none => false
    | some pid => (w.clientPages pid).isSome

/-- Reads `this.getHours() = this.localHours + this.childHours` from the
registry (the instance always exists when `update` runs; the `none` default is
dead code). -/
def hoursOf (st : Registry) (n : Nat) : ℚ :=
  match regGet st n with
  | some c => c.localHours + c.childHours
  | none => 0

/-- Embeds `children.filter(c => c !== null).reduce((acc, c) => acc +
c.getHours(), 0)` over the snapshots returned by `getOrCreateAll`. The sum is
exact in ℚ; the source reduces IEEE doubles, whose sum can differ from the
exact one by rounding error (0.1 + 0.2 is 0.30000000000000004 in binary64). -/
def childrenHours (cards : List (Option Card)) : ℚ :=
  cards.foldl (fun acc c =>
    match c with
    | some c2 => acc + (c2.localHours + c2.childHours)
    | none => acc) 0

/-- The effect of a successful `updateHours(n, hours)` on the observable page
state: the remote record and the eagerly refreshed page cache
(`pageCache.set(notionId, Promise.resolve(result))`, src/notion.ts line 233)
now carry the new "Time Spent" text, whose parsed first token is the rounded
value that was written. Only the `timeSpent` field changes. -/
def writeTimeSpent (w : World) (n : Nat) (h : ℚ) : World :=
  { w with
    pages := fun k =>
      if k = n then (w.pages k).map (fun d => { d with timeSpent := some h })
      else w.pages k }

/-- Sequentialized `await Promise.all(parents.map(p => p?.update(...)))`:
fold the recursive update (passed in as `upd`) over the resolved parent
instances, accumulating world, registry, events and the list of entered
frames; `none` propagates fuel exhaustion. -/
def foldParents (upd : World → Registry → Nat → Option (World × Registry × List Event × List Nat)) :
    World → Registry → List (Option Card) → Option (World × Registry × List Event × List Nat)
  | w, st, [] => some (w, st, [], [])
  | w, st, none :: rest => foldParents upd w st rest
  | w, st, some p :: rest =>
    match upd w st p.notionId with
    | none => none
    | some r1 =>
      match foldParents upd r1.1 r1.2.1 rest with
      | none => none
      | some r2 => some (r2.1, r2.2.1, r1.2.2.1 ++ r2.2.2.1, r1.2.2.2 ++ r2.2.2.2)

/-- Embeds `NotionCard.update` (src/NotionCard.ts lines 101-163), fueled: the
source recursion (`parents.map(p => p?.update())`) has no cycle guard, so the
embedding bounds the recursion depth and returns `none` when the bound is
exceeded — `updateGo f` succeeding for some `f` is exactly termination of the
source recursion. One call: fetch and parse the page (`!data` returns early);
read `previousHours` from "Time Spent"; recompute `this.localHours` via
`getHoursByName` with the instance's names; resolve children by id and sum
their `getHours()` into `this.childHours`; resolve parents by id and
recursively update each; then compare `this.getHours()` against
`previousHours`, skipping the write when equal (`NaN` compares false) and
otherwise writing the rounded total through `updateHours`. The result carries
the world, the registry, the emitted events and the ids of entered update
frames. The skip comparison `newHours === previousHours` is embedded as exact
ℚ equality; in the source it is an IEEE-double comparison of the unrounded sum
against the value re-parsed from the rounded stored text, which exact
arithmetic does not reproduce (0.1 + 0.2 is not `parseFloat("0.3")` in
binary64), so no theorem here depends on which branch it takes. -/
def updateGo : Nat → World → Registry → Nat → Option (World × Registry × List Event × List Nat)
  | 0, _, _, _ => none
  | f+1, w, st, n =>
    match w.pages n, regGet st n with
    | none, _ => some (w, st, [Event.fetchPage n], [n])
    | some _, none => some (w, st, [Event.fetchPage n], [n])
    | some data, some c =>
      let l := w.hoursByName c.taskName c.projectName
      let st1 := regModify st n (fun c0 => { c0 with localHours := l })
      let r1 := getOrCreateAll w st1 data.childIds
      let childH := childrenHours r1.2.1
      let st3 := regModify r1.1 n (fun c0 => { c0 with childHours := childH })
      let r2 := getOrCreateAll w st3 data.parentIds
      match foldParents (updateGo f) w r2.1 r2.2.1 with
      | none => none
      | some r3 =>
        let total := hoursOf r3.2.1 n
        let evs := Event.fetchPage n :: (r1.2.2 ++ r2.2.2 ++ r3.2.2.1)
        if some total = data.timeSpent then
          some (r3.1, r3.2.1, evs, n :: r3.2.2.2)
        else
          some (writeTimeSpent r3.1 n (round2 total), r3.2.1,
            evs ++ [Event.writeHours n (round2 total)], n :: r3.2.2.2)

/-- Termination of the source `update` recursion started at node `n`. -/
def UpdateTerminates (w : World) (st : Registry) (n : Nat) : Prop :=
  ∃ f, (updateGo f w st n).isSome

/-- The static parent graph of a world: the "Parent task" relation ids of each
parseable page. Writes change only `timeSpent`, so this map is invariant
during execution. -/
def pmapOf (w : World) : Nat → List Nat :=
  fun k =>
    match w.pages k with
    | some d => d.parentIds
    | none => []

/-- Depth-boundedness of the parent graph `pm` below node `n`: every chain of
parent references starting at `n` has length at most `d`. This holds for some
`d` exactly when no parent cycle is reachable upward from `n` (on a finite
graph), and fails for every `d` on a node that lists itself as a parent. -/
inductive DepthBounded (pm : Nat → List Nat) : Nat → Nat → Prop
  | step {d n} : (∀ p ∈ pm n, DepthBounded pm d p) → DepthBounded pm (d+1) n

/-- The world hypothesis justified by the source: `getHoursByName` rounds its
result to 2 decimals (src/harvest.ts line 178), so every hours figure the
oracle returns has at most two decimal places. -/
def Round2World (w : World) : Prop := ∀ a b, Round2 (w.hoursByName a b)

/-- Registry counterpart: every stored instance's hour fields have at most two
decimal places (maintained by construction: `localHours` always comes from
`getHoursByName` and `childHours` is a sum of such values). -/
def Round2Reg (st : Registry) : Prop :=
  ∀ k c, regGet st k = some c → Round2 c.localHours ∧ Round2 c.childHours

/-! ## src/limits.ts

The queues come from `@tanstack/pacer` (`queue` for reads, `asyncQueue` for
writes), an external dependency. Its scheduling contract is modelled from the
spec and the source comments ("Priority levels - higher numbers get processed
first", "Notion write queue - concurrency 1 (only one write at a time)"):
tasks wait in arrival order, a dispatch may happen only while fewer tasks are
in flight than the concurrency bound, and the dispatched task is the first
pending task of maximal priority. The repository-side configuration
(`PRIORITY`, the write queue's `concurrency: 1`) is embedded from
src/limits.ts. Both `updateHours` and `sendError` (src/notion.ts lines
242-250 and 282-283) enqueue into this single write queue via
`notionWriteLimit`. -/

/-- The `UpdateType` priority tiers (src/limits.ts lines 45-51). -/
inductive UpdateType where
  | realtime
  | bulk
  | background
  deriving DecidableEq

/-- The `PRIORITY` table (src/limits.ts lines 46-50): higher numbers get
processed first. -/
def PRIORITY : UpdateType → Nat
  | .realtime => 10
  | .bulk => 2
  | .background => 1

/-- A queued scheduling token: its priority tier value and its submission
sequence number (arrival order). -/
structure QTask where
  priority : Nat
  seq : Nat
  deriving DecidableEq

/-- State of one pacer queue: pending tasks in arrival order, tasks currently
in flight, and the next submission sequence number. -/
structure QueueState where
  pending : List QTask
  running : List QTask
  nextSeq : Nat
  deriving DecidableEq

/-- A queue starts empty. -/
def emptyQueue : QueueState := { pending := [], running := [], nextSeq := 0 }

/-- The largest priority value among a list of tasks. -/
def maxPriority (l : List QTask) : Nat := (l.map (fun t => t.priority)).foldr max 0

/-- The task a pacer queue dispatches next: the first pending task (arrival
order) whose priority attains the maximum, removed from the pending list. -/
def selectNext (l : List QTask) : Option (QTask × List QTask) :=
  match l.find? (fun t => maxPriority l ≤ t.priority) with
  | none => none
  | some t => some (t, l.erase t)

/-- Transitions of one queue with concurrency bound `c`: a caller enqueues a
task with some priority; the queue dispatches the selected pending task while
strictly fewer than `c` tasks are in flight; an in-flight task completes. -/
inductive QStep (c : Nat) : QueueState → QueueState → Prop
  | enqueue (s : QueueState) (p : Nat) :
      QStep c s { pending := s.pending ++ [⟨p, s.nextSeq⟩], running := s.running,
                  nextSeq := s.nextSeq + 1 }
  | dispatch (s : QueueState) (t : QTask) (rest : List QTask) :
      s.running.length < c → selectNext s.pending = some (t, rest) →
      QStep c s { pending := rest, running := t :: s.running, nextSeq := s.nextSeq }
  | complete (s : QueueState) (t : QTask) :
      t ∈ s.running →
      QStep c s { pending := s.pending, running := s.running.erase t, nextSeq := s.nextSeq }

/-- States a queue can reach from empty. -/
def Reachable (c : Nat) (s : QueueState) : Prop :=
  Relation.ReflTransGen (QStep c) emptyQueue s

/-- The `notionWriteQueue` concurrency setting (src/limits.ts line 97):
`concurrency: 1`, only one write at a time. -/
def notionWriteConcurrency : Nat := 1

/-! ## Memoizing TTL caches (src/notion.ts, src/harvest.ts)

`getPage`, `queryDatabase` and `getHoursByName` share one wrapper shape:

    const cached = cache.get(cacheKey);
    if (cached) return cached;
    const result = runOperation(options);
    cache.set(cacheKey, result);
    return await result;

There is no suspension point between `cache.get` and `cache.set` (the first
`await` is inside `runOperation`, after the promise was handed out), so under
cooperative concurrency the lookup is one atomic step, and the value stored is
the still-unresolved promise. A promise is modelled by a fresh identifier, so
distinct identifiers mean distinct invocations of the underlying operation,
and an identifier is cached without any notion of being resolved. -/

/-- A memoizing TTL cache: per key an in-flight-or-resolved promise identifier
and its expiry instant, plus the next fresh promise identifier. -/
structure CacheState where
  entries : String → Option (Nat × Nat)
  nextPromise : Nat

/-- One cached lookup at instant `now`: a live entry is returned as is; a
missing or expired entry triggers the underlying operation (third component
`true`), whose promise is stored immediately with expiry `now + ttl` (the
`better-memory-cache` `expireAfterMs` contract) and returned. -/
def cachedLookup (ttl : Nat) (s : CacheState) (key : String) (now : Nat) :
    CacheState × Nat × Bool :=
  match s.entries key with
  | some (pid, expiry) =>
    if now < expiry then (s, pid, false)
    else
      ({ entries := fun k => if k = key then some (s.nextPromise, now + ttl) else s.entries k,
         nextPromise := s.nextPromise + 1 }, s.nextPromise, true)
  | none =>
    ({ entries := fun k => if k = key then some (s.nextPromise, now + ttl) else s.entries k,
       nextPromise := s.nextPromise + 1 }, s.nextPromise, true)

/-- A sequence of lookups of the same key at the given instants, returning for
each the promise identifier obtained and whether the underlying operation was
invoked. -/
def runLookups (ttl : Nat) (s : CacheState) (key : String) :
    List Nat → CacheState × List (Nat × Bool)
  | [] => (s, [])
  | t :: ts =>
    let r := cachedLookup ttl s key t
    let r2 := runLookups ttl r.1 key ts
    (r2.1, (r.2.1, r.2.2) :: r2.2)

/-- Milliseconds constants of `better-memory-cache`. -/
def msSECOND : Nat := 1000

/-- One minute in milliseconds. -/
def msMINUTE : Nat := 60 * 1000

/-- TTL of `pageCache` (src/notion.ts line 80): one minute. -/
def pageCacheTTL : Nat := msMINUTE

/-- TTL of `databaseCache` (src/notion.ts line 163): one minute. -/
def databaseCacheTTL : Nat := msMINUTE

/-- TTL of `hoursCache` (src/harvest.ts line 182): five seconds. -/
def hoursCacheTTL : Nat := 5 * msSECOND

/-! ## Retry wrapper (src/notion.ts lines 18-64, src/harvest-api.ts)

Both copies of `withRetry` have the same control flow: for `attempt` from 1 to
`maxRetries`, run the operation; a non-timeout error is rethrown immediately;
a timeout error on the last attempt is rethrown; otherwise wait
`baseDelay * attempt` milliseconds and try again. The Notion copy classifies
timeouts by client error code or message, the Harvest copy by the message of
its own `withTimeout` race; both are abstracted to an `isTimeout` flag. The
operation is modelled as a function from the attempt number to that attempt's
outcome; an error carries a code so that which error was re-raised stays
observable. -/

/-- An error outcome: its timeout classification and an identity. -/
structure RErr where
  isTimeout : Bool
  code : Nat
  deriving DecidableEq

/-- The retry loop from `attempt` on. Returns the final outcome and the list
of delays slept, in order. -/
def retryGo {α : Type} (op : Nat → Except RErr α) (maxRetries baseDelay : Nat)
    (attempt : Nat) : Except RErr α × List Nat :=
  match op attempt with
  | Except.ok v => (Except.ok v, [])
  | Except.error e =>
    if e.isTimeout = false then (Except.error e, [])
    else if _h : maxRetries ≤ attempt then (Except.error e, [])
    else
      let r := retryGo op maxRetries baseDelay (attempt + 1)
      (r.1, baseDelay * attempt :: r.2)
termination_by maxRetries - attempt
decreasing_by omega

/-- Embeds `withRetry`: the loop starts at attempt 1. The source defaults are
`maxRetries = 10`, `baseDelay = 1000`. -/
def withRetry {α : Type} (op : Nat → Except RErr α) (maxRetries baseDelay : Nat) :
    Except RErr α × List Nat :=
  retryGo op maxRetries baseDelay 1

/-! ## src/harvest.ts: entry filtering -/

/-- A parsed Harvest time entry (`timeEntrySchema`): client name, hours,
notes. -/
structure TimeEntry where
  clientName : String
  hours : ℚ
  notes : String
  deriving DecidableEq

/-- The shared post-processing pipeline of `realtimeLoop` (src/harvest.ts
lines 116-124) and `runScheduledBulkUpdate` (lines 68-73): keep `safeParse`
successes, then drop entries whose client name is exactly "Underbelly", then
those whose client name is exactly "Underbelly (Square)". -/
def processEntries (raw : List (Option TimeEntry)) : List TimeEntry :=
  ((raw.filterMap id).filter (fun c => c.clientName != "Underbelly")).filter
    (fun c => c.clientName != "Underbelly (Square)")

/-- The entries `realtimeLoop` goes on to process: parsed and filtered from
the concatenation of the updated-entries response and the running-entries
response. -/
def realtimeEntries (updated running : List (Option TimeEntry)) : List TimeEntry :=
  processEntries (updated ++ running)

/-- The entries `runScheduledBulkUpdate` hands to `processBulkUpdate`. -/
def bulkEntries (res : List (Option TimeEntry)) : List TimeEntry :=
  processEntries res

/-- The card lookups the realtime loop issues: one
`NotionCard.getOrCreate({name: e.notes, project: e.client.name})` per
surviving entry. -/
def realtimeLookups (updated running : List (Option TimeEntry)) : List (String × String) :=
  (realtimeEntries updated running).map (fun e => (e.notes, e.clientName))

/-- The card lookups the bulk update issues per surviving entry. -/
def bulkLookups (res : List (Option TimeEntry)) : List (String × String) :=
  (bulkEntries res).map (fun e => (e.notes, e.clientName))

/-- Concrete operation used by the retry witness: attempt 1 raises a timeout
error, attempt 2 succeeds. -/
def retryWitnessOp : Nat → Except RErr Nat :=
  fun k => if k = 1 then Except.error { isTimeout := true, code := 11 } else Except.ok 7

/-- Pending tasks sit in strictly increasing submission order, below the next
sequence number. -/
def SeqOrdered (s : QueueState) : Prop :=
  s.pending.Pairwise (fun a b => a.seq < b.seq) ∧ ∀ t ∈ s.pending, t.seq < s.nextSeq

/-- Frame conditions of one `update` run (or parent phase): registry entries
of nodes outside the visited frames are untouched, hours writes target only
visited frames, no error markers are written, pages of unvisited nodes are
unchanged, the static parent graph and the other world components are
preserved, and well-formedness invariants of the registry are maintained. -/
structure StepOk (w : World) (st : Registry)
    (r : World × Registry × List Event × List Nat) : Prop where
  preserve : ∀ k c, k ∉ r.2.2.2 → regGet st k = some c → regGet r.2.1 k = some c
  writesVis : ∀ k h, Event.writeHours k h ∈ r.2.2.1 → k ∈ r.2.2.2
  noErrors : ∀ k, Event.writeError k ∉ r.2.2.1
  pagesOff : ∀ k, k ∉ r.2.2.2 → r.1.pages k = w.pages k
  pmapEq : pmapOf r.1 = pmapOf w
  clientEq : r.1.clientPages = w.clientPages
  hoursEq : r.1.hoursByName = w.hoursByName
  wf : regWF st → regWF r.2.1
  nodup : nodupKeys st → nodupKeys r.2.1
  round2 : Round2World w → Round2Reg st → Round2Reg r.2.1

def selfCard : CardData :=
  { parentIds := [5], childIds := [], title := "s", projectIds := [], timeSpent := none }

def selfWorld : World :=
  { pages := fun k => if k = 5 then some selfCard else none
    clientPages := fun _ => none
    hoursByName := fun _ _ => 0
    clientQuery := []
    taskQuery := fun _ => [] }

def selfRegistry : Registry :=
  [(5, { notionId := 5, taskName := "s", projectName := "p", localHours := 0, childHours := 0 })]

def witnessCard : Card :=
  { notionId := 3, taskName := "alpha", projectName := "acme", localHours := 0, childHours := 0 }

def witnessRegistry : Registry := [(3, witnessCard)]

def emptyWorld : World :=
  { pages := fun _ => none
    clientPages := fun _ => none
    hoursByName := fun _ _ => 0
    clientQuery := []
    taskQuery := fun _ => [] }

def dupClient : ClientData := { name := "acme" }

def dupCardData : CardData :=
  { parentIds := [], childIds := [], title := "alpha", projectIds := [1], timeSpent := none }

def dupWorld : World :=
  { pages := fun _ => none
    clientPages := fun _ => none
    hoursByName := fun _ _ => 0
    clientQuery := [some (1, dupClient)]
    taskQuery := fun _ => [some (7, dupCardData), some (8, dupCardData)] }

/-! ## Theorems -/

/-! ### Name matching (claim C8) -/

/-- Claim C8, counterexample: the claimed characterization "`taskNamesMatch a b`
holds exactly when the two notes are equal after normalization" fails at the
concrete input `("", "")`: both notes normalize to the empty string (so they
are equal after normalization), yet the function returns `false` because the
source guard `if (!nameA || !nameB) return false` fires on empty strings. -/
theorem taskNamesMatch_empty_note_counterexample :
    taskNamesMatch "" "" = false ∧ normalize "" = normalize "" :=
  ⟨rfl, rfl⟩

/-- Claim C8 (amended): the concrete examples hold —
`taskNamesMatch "[Design] Build login page" "build login page"` is true,
`taskNamesMatch "Design review" "Build login page"` is false,
`clientNamesMatch "Acme Corp" "acme"` is true — and in general
`clientNamesMatch a b` holds exactly when, after trimming, lowercasing and
alias normalization (`processClientName`), one name is a prefix of the other,
while `taskNamesMatch a b` holds exactly when both raw notes are nonempty and
they are equal after normalization (`normalize`: keep the first line, strip
every inline bracketed or parenthesized segment, lowercase, keep only
alphanumeric characters). The emptiness guard `if (!nameA || !nameB) return
false` tests the raw inputs before normalization: `("", "")` does not match
even though the normalized forms agree, while raw-nonempty notes that
normalize to the empty string, such as `"()"` and `"[]"`, do match. -/
theorem name_matching_characterization :
    (∀ a b : String, taskNamesMatch a b = true ↔
      a ≠ "" ∧ b ≠ "" ∧ normalize a = normalize b) ∧
    (∀ a b : String, clientNamesMatch a b = true ↔
      (processClientName b).data <+: (processClientName a).data ∨
      (processClientName a).data <+: (processClientName b).data) ∧
    taskNamesMatch "()" "[]" = true ∧
    normalize "()" = "" ∧
    taskNamesMatch "[Design] Build login page" "build login page" = true ∧
    taskNamesMatch "Design review" "Build login page" = false ∧
    clientNamesMatch "Acme Corp" "acme" = true := by
  refine ⟨?_, ?_, by decide, by decide, by decide, by decide, by decide⟩
  · intro a b
    simp only [taskNamesMatch]
    split
    · rename_i h
      simp only [Bool.or_eq_true, String.isEmpty_iff] at h
      constructor
      · intro hf; cases hf
      · rintro ⟨h1, h2, -⟩
        rcases h with h | h
        · exact absurd h h1
        · exact absurd h h2
    · rename_i h
      simp only [Bool.or_eq_true, String.isEmpty_iff] at h
      push_neg at h
      simp [h.1, h.2, beq_iff_eq, normalize]
  · intro a b
    simp only [clientNamesMatch, processClientName, Bool.or_eq_true,
      List.isPrefixOf_iff_prefix]

/-! ### Harvest entry filtering (claim C10) -/

/-- Membership in the shared parse-and-filter pipeline. -/
theorem mem_processEntries {raw : List (Option TimeEntry)} {e : TimeEntry} :
    e ∈ processEntries raw ↔
      some e ∈ raw ∧ e.clientName ≠ "Underbelly" ∧ e.clientName ≠ "Underbelly (Square)" := by
  simp only [processEntries, List.mem_filter, List.mem_filterMap, bne_iff_ne, id_eq,
    exists_eq_right, and_assoc]

/-- Claim C10: both the realtime loop and the scheduled bulk update drop a
parsed entry exactly when its client name is the literal "Underbelly" or the
literal "Underbelly (Square)"; a dropped entry contributes no card lookup (and
hence no card creation or hours write), and every other parsed entry is
processed and yields its lookup. -/
theorem underbelly_entries_filtered :
    (∀ (updated running : List (Option TimeEntry)) (e : TimeEntry),
      e ∈ realtimeEntries updated running ↔
        some e ∈ updated ++ running ∧
        e.clientName ≠ "Underbelly" ∧ e.clientName ≠ "Underbelly (Square)") ∧
    (∀ (res : List (Option TimeEntry)) (e : TimeEntry),
      e ∈ bulkEntries res ↔
        some e ∈ res ∧ e.clientName ≠ "Underbelly" ∧ e.clientName ≠ "Underbelly (Square)") ∧
    (∀ (updated running : List (Option TimeEntry)) (nm pj : String),
      (nm, pj) ∈ realtimeLookups updated running ↔
        ∃ e : TimeEntry, some e ∈ updated ++ running ∧ e.notes = nm ∧ e.clientName = pj ∧
          pj ≠ "Underbelly" ∧ pj ≠ "Underbelly (Square)") ∧
    (∀ (res : List (Option TimeEntry)) (nm pj : String),
      (nm, pj) ∈ bulkLookups res ↔
        ∃ e : TimeEntry, some e ∈ res ∧ e.notes = nm ∧ e.clientName = pj ∧
          pj ≠ "Underbelly" ∧ pj ≠ "Underbelly (Square)") := by
  refine ⟨fun u r e => by simp only [realtimeEntries]; exact mem_processEntries,
    fun res e => by simp only [bulkEntries]; exact mem_processEntries, ?_, ?_⟩
  · intro u r nm pj
    constructor
    · intro h
      simp only [realtimeLookups, realtimeEntries, List.mem_map] at h
      obtain ⟨e, he, heq⟩ := h
      rw [mem_processEntries] at he
      cases heq
      exact ⟨e, he.1, rfl, rfl, he.2.1, he.2.2⟩
    · rintro ⟨e, hm, rfl, rfl, h1, h2⟩
      simp only [realtimeLookups, realtimeEntries, List.mem_map]
      exact ⟨e, mem_processEntries.2 ⟨hm, h1, h2⟩, rfl⟩
  · intro res nm pj
    constructor
    · intro h
      simp only [bulkLookups, bulkEntries, List.mem_map] at h
      obtain ⟨e, he, heq⟩ := h
      rw [mem_processEntries] at he
      cases heq
      exact ⟨e, he.1, rfl, rfl, he.2.1, he.2.2⟩
    · rintro ⟨e, hm, rfl, rfl, h1, h2⟩
      simp only [bulkLookups, bulkEntries, List.mem_map]
      exact ⟨e, mem_processEntries.2 ⟨hm, h1, h2⟩, rfl⟩

/-! ### Cache dedup (claim C6) -/

/-- A run of lookups against a live cache entry returns the cached promise
every time, changes nothing, and never invokes the underlying operation. -/
theorem runLookups_hit (ttl : Nat) (key : String) (pid expiry : Nat) :
    ∀ (ts : List Nat) (s : CacheState), s.entries key = some (pid, expiry) →
      (∀ t ∈ ts, t < expiry) →
      runLookups ttl s key ts = (s, ts.map (fun _ => (pid, false))) := by
  intro ts
  induction ts with
  | nil => intro s h ht; rfl
  | cons t ts ih =>
    intro s h ht
    have hhit : cachedLookup ttl s key t = (s, pid, false) := by
      simp [cachedLookup, h, ht t (by simp)]
    simp [runLookups, hhit, ih s h (fun u hu => ht u (by simp [hu]))]

/-- Claim C6: a cache wrapper stores the promise of the underlying operation
under its key immediately (first conjunct: after the first lookup the entry
holds that promise with expiry `t0 + ttl`, independent of any resolution);
consequently any further lookups of the same key within the TTL window —
concurrent ones included, since identifiers say nothing about resolution —
return the same promise and the underlying operation runs exactly once. The
TTLs configured for the three wrappers are one minute for `getPage` and
`queryDatabase` and five seconds for `getHoursByName`. -/
theorem cache_single_flight_dedup :
    ∀ (ttl : Nat) (s : CacheState) (key : String) (t0 : Nat) (ts : List Nat),
      s.entries key = none → (∀ t ∈ ts, t < t0 + ttl) →
      (cachedLookup ttl s key t0).1.entries key = some (s.nextPromise, t0 + ttl) ∧
      (runLookups ttl s key (t0 :: ts)).2 =
        (s.nextPromise, true) :: ts.map (fun _ => (s.nextPromise, false)) ∧
      ((runLookups ttl s key (t0 :: ts)).2.filter (fun r => r.2)).length = 1 ∧
      pageCacheTTL = 60000 ∧ databaseCacheTTL = 60000 ∧ hoursCacheTTL = 5000 := by
  intro ttl s key t0 ts hnone hts
  have hmiss : cachedLookup ttl s key t0 =
      ({ entries := fun k => if k = key then some (s.nextPromise, t0 + ttl) else s.entries k,
         nextPromise := s.nextPromise + 1 }, s.nextPromise, true) := by
    simp [cachedLookup, hnone]
  have hrest := runLookups_hit ttl key s.nextPromise (t0 + ttl) ts
    (cachedLookup ttl s key t0).1 (by rw [hmiss]; simp) hts
  have hrun : (runLookups ttl s key (t0 :: ts)).2 =
      (s.nextPromise, true) :: ts.map (fun _ => (s.nextPromise, false)) := by
    simp only [runLookups]
    rw [hrest, hmiss]
  refine ⟨by rw [hmiss]; simp, hrun, ?_, rfl, rfl, rfl⟩
  rw [hrun]
  simp [List.filter_map]

/-- Claim C6, witness: a fresh cache, one lookup at instant 100 and one at
instant 105 with TTL 10 — the first invokes the operation, the second shares
its promise. -/
theorem cache_single_flight_dedup_witness :
    ({ entries := fun _ => none, nextPromise := 0 } : CacheState).entries "k" = none ∧
    (cachedLookup 10 { entries := fun _ => none, nextPromise := 0 } "k" 100).1.entries "k" =
      some (0, 110) ∧
    (runLookups 10 { entries := fun _ => none, nextPromise := 0 } "k" [100, 105]).2 =
      [(0, true), (0, false)] := by
  have h := cache_single_flight_dedup 10 { entries := fun _ => none, nextPromise := 0 }
    "k" 100 [105] rfl (by decide)
  exact ⟨rfl, h.1, h.2.1⟩

/-! ### Retry wrapper (claim C7) -/

/-- A successful attempt ends the retry loop at once. -/
theorem retryGo_ok {α : Type} {op : Nat → Except RErr α} {maxRetries baseDelay attempt : Nat}
    {v : α} (h : op attempt = Except.ok v) :
    retryGo op maxRetries baseDelay attempt = (Except.ok v, []) := by
  rw [retryGo, h]

/-- A non-timeout error is rethrown immediately, with no delay and no further
attempt. -/
theorem retryGo_fatal {α : Type} {op : Nat → Except RErr α} {maxRetries baseDelay attempt : Nat}
    {e : RErr} (h : op attempt = Except.error e) (ht : e.isTimeout = false) :
    retryGo op maxRetries baseDelay attempt = (Except.error e, []) := by
  rw [retryGo, h]
  simp [ht]

/-- A timeout on the final attempt is rethrown. -/
theorem retryGo_exhaust {α : Type} {op : Nat → Except RErr α} {maxRetries baseDelay attempt : Nat}
    {e : RErr} (h : op attempt = Except.error e) (ht : e.isTimeout = true)
    (hs : maxRetries ≤ attempt) :
    retryGo op maxRetries baseDelay attempt = (Except.error e, []) := by
  rw [retryGo, h]
  simp [ht, hs]

/-- A timeout before the final attempt sleeps `baseDelay * attempt` and
retries. -/
theorem retryGo_retry {α : Type} {op : Nat → Except RErr α} {maxRetries baseDelay attempt : Nat}
    {e : RErr} (h : op attempt = Except.error e) (ht : e.isTimeout = true)
    (hs : ¬ maxRetries ≤ attempt) :
    retryGo op maxRetries baseDelay attempt =
      ((retryGo op maxRetries baseDelay (attempt + 1)).1,
        baseDelay * attempt :: (retryGo op maxRetries baseDelay (attempt + 1)).2) := by
  rw [retryGo, h]
  simp [ht, hs]

/-- Full characterization of the retry loop from any starting attempt. -/
theorem retryGo_spec {α : Type} (op : Nat → Except RErr α) (maxRetries baseDelay : Nat) :
    ∀ (fuel attempt : Nat), maxRetries - attempt ≤ fuel → 1 ≤ attempt → attempt ≤ maxRetries →
      ∃ n, attempt ≤ n ∧ n ≤ maxRetries ∧
        (∀ k, attempt ≤ k → k < n → ∃ e, op k = Except.error e ∧ e.isTimeout = true) ∧
        (retryGo op maxRetries baseDelay attempt).1 = op n ∧
        (retryGo op maxRetries baseDelay attempt).2 =
          (List.range (n - attempt)).map (fun i => baseDelay * (attempt + i)) ∧
        (n < maxRetries →
          (∃ v, op n = Except.ok v) ∨ (∃ e, op n = Except.error e ∧ e.isTimeout = false)) := by
  intro fuel
  induction fuel with
  | zero =>
    intro attempt hfuel h1 hle
    have hstop : maxRetries ≤ attempt := by omega
    cases hop : op attempt with
    | ok v =>
      exact ⟨attempt, le_refl _, hle, fun k hk1 hk2 => absurd hk1 (by omega),
        by rw [retryGo_ok hop, hop], by rw [retryGo_ok hop]; simp, fun _ => Or.inl ⟨v, hop⟩⟩
    | error e =>
      cases ht : e.isTimeout with
      | false =>
        exact ⟨attempt, le_refl _, hle, fun k hk1 hk2 => absurd hk1 (by omega),
          by rw [retryGo_fatal hop ht, hop], by rw [retryGo_fatal hop ht]; simp,
          fun _ => Or.inr ⟨e, hop, ht⟩⟩
      | true =>
        exact ⟨attempt, le_refl _, hle, fun k hk1 hk2 => absurd hk1 (by omega),
          by rw [retryGo_exhaust hop ht hstop, hop],
          by rw [retryGo_exhaust hop ht hstop]; simp, by omega⟩
  | succ fuel ih =>
    intro attempt hfuel h1 hle
    cases hop : op attempt with
    | ok v =>
      exact ⟨attempt, le_refl _, hle, fun k hk1 hk2 => absurd hk1 (by omega),
        by rw [retryGo_ok hop, hop], by rw [retryGo_ok hop]; simp, fun _ => Or.inl ⟨v, hop⟩⟩
    | error e =>
      cases ht : e.isTimeout with
      | false =>
        exact ⟨attempt, le_refl _, hle, fun k hk1 hk2 => absurd hk1 (by omega),
          by rw [retryGo_fatal hop ht, hop], by rw [retryGo_fatal hop ht]; simp,
          fun _ => Or.inr ⟨e, hop, ht⟩⟩
      | true =>
        by_cases hstop : maxRetries ≤ attempt
        · exact ⟨attempt, le_refl _, hle, fun k hk1 hk2 => absurd hk1 (by omega),
            by rw [retryGo_exhaust hop ht hstop, hop],
            by rw [retryGo_exhaust hop ht hstop]; simp, by omega⟩
        · obtain ⟨n, hn1, hn2, hn3, hn4, hn5, hn6⟩ :=
            ih (attempt + 1) (by omega) (by omega) (by omega)
          refine ⟨n, by omega, hn2, ?_, ?_, ?_, hn6⟩
          · intro k hk1 hk2
            rcases Nat.eq_or_lt_of_le hk1 with rfl | hlt
            · exact ⟨e, hop, ht⟩
            · exact hn3 k (by omega) hk2
          · rw [retryGo_retry hop ht hstop]
            exact hn4
          · rw [retryGo_retry hop ht hstop]
            have hr : n - attempt = (n - (attempt + 1)) + 1 := by omega
            rw [hr, List.range_succ_eq_map, List.map_cons, List.map_map]
            simp only [List.cons.injEq]
            refine ⟨by simp, ?_⟩
            rw [hn5]
            congr 1
            funext i
            simp only [Function.comp_apply, Nat.succ_eq_add_one]
            ring

/-- Claim C7: `withRetry` performs some final attempt `n` bounded by
`maxRetries`; every earlier attempt raised an error classified as a timeout
(so only timeouts are retried); before retry attempt `k + 1` it slept
`baseDelay * k` (linear backoff — the delay list is exactly
`[baseDelay * 1, ..., baseDelay * (n-1)]`); the outcome handed to the caller
is exactly attempt `n`'s outcome (in particular the last error is re-raised
after exhaustion); and when the loop stopped early it was because attempt `n`
succeeded or raised a non-timeout error, which is rethrown with no further
attempts. -/
theorem withRetry_timeout_linear_backoff :
    ∀ {α : Type} (op : Nat → Except RErr α) (maxRetries baseDelay : Nat), 1 ≤ maxRetries →
      ∃ n, 1 ≤ n ∧ n ≤ maxRetries ∧
        (∀ k, 1 ≤ k → k < n → ∃ e, op k = Except.error e ∧ e.isTimeout = true) ∧
        (withRetry op maxRetries baseDelay).1 = op n ∧
        (withRetry op maxRetries baseDelay).2 =
          (List.range (n - 1)).map (fun i => baseDelay * (1 + i)) ∧
        (n < maxRetries → (∃ v, op n = Except.ok v) ∨
          (∃ e, op n = Except.error e ∧ e.isTimeout = false)) :=
  fun op maxR base h1 => retryGo_spec op maxR base maxR 1 (by omega) (le_refl 1) h1

/-- Claim C7, witness: the operation that times out on attempt 1 and succeeds
on attempt 2, run with the source defaults `maxRetries = 10`,
`baseDelay = 1000`. -/
theorem withRetry_timeout_linear_backoff_witness :
    (1 : Nat) ≤ 10 ∧
    ∃ n, 1 ≤ n ∧ n ≤ 10 ∧
      (∀ k, 1 ≤ k → k < n →
        ∃ e, retryWitnessOp k = Except.error e ∧ e.isTimeout = true) ∧
      (withRetry retryWitnessOp 10 1000).1 = retryWitnessOp n ∧
      (withRetry retryWitnessOp 10 1000).2 =
        (List.range (n - 1)).map (fun i => 1000 * (1 + i)) ∧
      (n < 10 → (∃ v, retryWitnessOp n = Except.ok v) ∨
        (∃ e, retryWitnessOp n = Except.error e ∧ e.isTimeout = false)) :=
  ⟨by decide, withRetry_timeout_linear_backoff retryWitnessOp 10 1000 (by decide)⟩

/-! ### Scheduler queues (claims C4 and C5) -/

/-- Every pending task's priority is bounded by `maxPriority`. -/
theorem maxPriority_le {l : List QTask} {u : QTask} (h : u ∈ l) : u.priority ≤ maxPriority l := by
  induction l with
  | nil => cases h
  | cons t ts ih =>
    rcases List.mem_cons.1 h with rfl | h
    · simp [maxPriority]
    · have := ih h
      simp only [maxPriority, List.map_cons, List.foldr_cons]
      exact le_trans this (le_max_right _ _)

/-- Lemma: `maxPriority` is the least upper bound on nonempty lists. -/
theorem maxPriority_le_bound {l : List QTask} {m : Nat} (h : ∀ u ∈ l, u.priority ≤ m) :
    maxPriority l ≤ m ∨ l = [] := by
  induction l with
  | nil => exact Or.inr rfl
  | cons t ts ih =>
    left
    simp only [maxPriority, List.map_cons, List.foldr_cons]
    rcases ih (fun u hu => h u (by simp [hu])) with h2 | rfl
    · exact max_le (h t (by simp)) h2
    · simpa [maxPriority] using h t (by simp)

/-- A successful `find?` splits the list at the found element, with the
predicate failing on everything before it. -/
theorem find?_decomp {p : QTask → Bool} :
    ∀ {l : List QTask} {t : QTask}, l.find? p = some t →
      ∃ l1 l2, l = l1 ++ t :: l2 ∧ ∀ u ∈ l1, p u = false := by
  intro l
  induction l with
  | nil => intro t h; simp at h
  | cons a as ih =>
    intro t h
    rw [List.find?_cons] at h
    rcases hpa : p a with _ | _
    · rw [hpa] at h
      simp only [cond_false] at h
      obtain ⟨l1, l2, rfl, hl1⟩ := ih h
      exact ⟨a :: l1, l2, rfl, fun u hu => by
        rcases List.mem_cons.1 hu with rfl | hu
        · exact hpa
        · exact hl1 u hu⟩
    · rw [hpa] at h
      simp only [cond_true, Option.some.injEq] at h
      subst h
      exact ⟨[], as, rfl, by simp⟩

/-- What `selectNext` returns: a pending task of maximal priority, the rest
being the pending list with it removed, positioned after only
strictly-lower-priority tasks. -/
theorem selectNext_spec {l : List QTask} {t : QTask} {rest : List QTask}
    (h : selectNext l = some (t, rest)) :
    t ∈ l ∧ rest = l.erase t ∧ (∀ u ∈ l, u.priority ≤ t.priority) ∧
      ∃ l1 l2, l = l1 ++ t :: l2 ∧ ∀ u ∈ l1, u.priority < maxPriority l := by
  rw [selectNext] at h
  cases hf : l.find? (fun u => decide (maxPriority l ≤ u.priority)) with
  | none => rw [hf] at h; simp at h
  | some t2 =>
    rw [hf] at h
    simp only [Option.some.injEq, Prod.mk.injEq] at h
    obtain ⟨rfl, rfl⟩ := h
    have hmem : t2 ∈ l := List.mem_of_find?_eq_some hf
    have hpred : maxPriority l ≤ t2.priority := by
      have := List.find?_some hf
      simpa using this
    obtain ⟨l1, l2, heq, hl1⟩ := find?_decomp hf
    refine ⟨hmem, rfl, fun u hu => le_trans (maxPriority_le hu) hpred, l1, l2, heq, ?_⟩
    intro u hu
    have := hl1 u hu
    simp at this
    omega

/-- The in-flight count never exceeds the concurrency bound. -/
theorem reachable_running_le :
    ∀ (c : Nat) (s : QueueState), Reachable c s → s.running.length ≤ c := by
  intro c s h
  induction h with
  | refl => simp [emptyQueue]
  | tail hr step ih =>
    cases step with
    | enqueue p => simpa using ih
    | dispatch t rest hlen hsel => simpa using hlen
    | complete t hmem =>
      simp only []
      exact le_trans (List.Sublist.length_le (List.erase_sublist t _)) ih

/-- The submission-order invariant holds in every reachable state. -/
theorem reachable_seqOrdered :
    ∀ (c : Nat) (s : QueueState), Reachable c s → SeqOrdered s := by
  intro c s h
  induction h with
  | refl => exact ⟨List.Pairwise.nil, by simp [emptyQueue]⟩
  | tail hr step ih =>
    rename_i s1 s2
    obtain ⟨hp, hn⟩ := ih
    cases step with
    | enqueue p =>
      constructor
      · refine List.pairwise_append.2 ⟨hp, List.pairwise_singleton _ _, ?_⟩
        intro a ha b hb
        simp only [List.mem_singleton] at hb
        subst hb
        exact hn a ha
      · intro t ht
        rcases List.mem_append.1 ht with h2 | h2
        · have := hn t h2
          simp only []
          omega
        · simp only [List.mem_singleton] at h2
          subst h2
          simp
    | dispatch t rest hlen hsel =>
      obtain ⟨-, hrest, -, -⟩ := selectNext_spec hsel
      subst hrest
      have hsub : List.Sublist (s1.pending.erase t) s1.pending := List.erase_sublist t s1.pending
      exact ⟨hp.sublist hsub, fun u hu => hn u (hsub.subset hu)⟩
    | complete t hm => exact ⟨hp, hn⟩

/-- Claim C4: with the source configuration `concurrency: 1` of
`notionWriteQueue` — through which both `updateHours` and `sendError` are
routed via `notionWriteLimit` — every reachable state of the write queue has
at most one task in flight, whatever the priorities of the submitted writes:
priority affects only queue position, never parallelism. -/
theorem write_queue_serialized :
    ∀ s : QueueState, Reachable notionWriteConcurrency s → s.running.length ≤ 1 :=
  fun s h => reachable_running_le notionWriteConcurrency s h

/-- Claim C4, witness: the state reached by enqueueing one write and
dispatching it. -/
theorem write_queue_serialized_witness :
    Reachable notionWriteConcurrency { pending := [], running := [⟨5, 0⟩], nextSeq := 1 } ∧
    ({ pending := [], running := [⟨5, 0⟩], nextSeq := 1 } : QueueState).running.length ≤ 1 := by
  have h1 : QStep notionWriteConcurrency emptyQueue
      { pending := [⟨5, 0⟩], running := [], nextSeq := 1 } :=
    QStep.enqueue emptyQueue 5
  have h2 : QStep notionWriteConcurrency { pending := [⟨5, 0⟩], running := [], nextSeq := 1 }
      { pending := [], running := [⟨5, 0⟩], nextSeq := 1 } :=
    QStep.dispatch _ ⟨5, 0⟩ [] (by decide) (by decide)
  have hreach : Reachable notionWriteConcurrency
      { pending := [], running := [⟨5, 0⟩], nextSeq := 1 } :=
    Relation.ReflTransGen.tail (Relation.ReflTransGen.tail Relation.ReflTransGen.refl h1) h2
  exact ⟨hreach, write_queue_serialized _ hreach⟩

/-- Claim C5: in any reachable queue state, the task `selectNext` hands to a
dispatch has maximal priority among all pending tasks, and among pending tasks
of that same priority it is the earliest submitted (least sequence number) —
so a pending higher-priority request beats a lower-priority one submitted
earlier, and within one tier dispatch is FIFO. The source priority values are
realtime = 10 > bulk = 2 > background = 1. -/
theorem dispatch_max_priority_fifo :
    (∀ (c : Nat) (s : QueueState) (t : QTask) (rest : List QTask),
      Reachable c s → selectNext s.pending = some (t, rest) →
      t ∈ s.pending ∧ rest = s.pending.erase t ∧
      (∀ u ∈ s.pending, u.priority ≤ t.priority) ∧
      (∀ u ∈ s.pending, u.priority = t.priority → u ≠ t → t.seq < u.seq)) ∧
    PRIORITY UpdateType.realtime = 10 ∧ PRIORITY UpdateType.bulk = 2 ∧
    PRIORITY UpdateType.background = 1 := by
  refine ⟨?_, rfl, rfl, rfl⟩
  intro c s t rest hreach hsel
  obtain ⟨hmem, hrest, hmax, l1, l2, heq, hl1⟩ := selectNext_spec hsel
  obtain ⟨hp, -⟩ := reachable_seqOrdered c s hreach
  refine ⟨hmem, hrest, hmax, ?_⟩
  intro u hu hup hne
  have hmaxle : maxPriority s.pending ≤ t.priority := by
    rcases maxPriority_le_bound hmax with h2 | h2
    · exact h2
    · rw [h2] at hmem; cases hmem
  rw [heq] at hu
  rw [heq] at hp
  rcases List.mem_append.1 hu with h1 | h2
  · exfalso
    have hlt := hl1 u h1
    omega
  · rcases List.mem_cons.1 h2 with rfl | h2
    · exact absurd rfl hne
    · exact (List.pairwise_cons.1 (List.pairwise_append.1 hp).2.1).1 u h2

/-- Claim C5, witness: a bulk-priority task submitted first and a
realtime-priority task submitted second; the realtime one is selected. -/
theorem dispatch_max_priority_fifo_witness :
    Reachable 1 { pending := [⟨2, 0⟩, ⟨10, 1⟩], running := [], nextSeq := 2 } ∧
    ((⟨10, 1⟩ : QTask) ∈ ([⟨2, 0⟩, ⟨10, 1⟩] : List QTask) ∧
      [(⟨2, 0⟩ : QTask)] = ([⟨2, 0⟩, ⟨10, 1⟩] : List QTask).erase ⟨10, 1⟩ ∧
      (∀ u ∈ ([⟨2, 0⟩, ⟨10, 1⟩] : List QTask), u.priority ≤ (10 : Nat)) ∧
      (∀ u ∈ ([⟨2, 0⟩, ⟨10, 1⟩] : List QTask),
        u.priority = (10 : Nat) → u ≠ ⟨10, 1⟩ → (1 : Nat) < u.seq)) := by
  have h1 : QStep 1 emptyQueue { pending := [⟨2, 0⟩], running := [], nextSeq := 1 } :=
    QStep.enqueue emptyQueue 2
  have h2 : QStep 1 { pending := [⟨2, 0⟩], running := [], nextSeq := 1 }
      { pending := [⟨2, 0⟩, ⟨10, 1⟩], running := [], nextSeq := 2 } :=
    QStep.enqueue _ 10
  have hreach : Reachable 1 { pending := [⟨2, 0⟩, ⟨10, 1⟩], running := [], nextSeq := 2 } :=
    Relation.ReflTransGen.tail (Relation.ReflTransGen.tail Relation.ReflTransGen.refl h1) h2
  exact ⟨hreach, dispatch_max_priority_fifo.1 1 _ ⟨10, 1⟩ [⟨2, 0⟩] hreach (by decide)⟩

/-! ### Registry lemmas -/

theorem regGet_regSet_self (st : Registry) (k : Nat) (c : Card) :
    regGet (regSet st k c) k = some c := by
  induction st with
  | nil => simp [regSet, regGet]
  | cons e rest ih =>
    rcases e with ⟨k2, c2⟩
    by_cases h : k2 = k
    · subst h; simp [regSet, regGet]
    · simp [regSet, regGet, h, ih]

theorem regGet_regSet_ne (st : Registry) {k k2 : Nat} (h : k2 ≠ k) (c : Card) :
    regGet (regSet st k c) k2 = regGet st k2 := by
  induction st with
  | nil => simp [regSet, regGet, Ne.symm h]
  | cons e rest ih =>
    rcases e with ⟨k3, c3⟩
    by_cases h3 : k3 = k
    · subst h3
      simp [regSet, regGet, Ne.symm h]
    · by_cases h2 : k3 = k2
      · subst h2; simp [regSet, regGet, h3]
      · simp [regSet, regGet, h3, h2, ih]

theorem regGet_regModify_self (st : Registry) (k : Nat) (f : Card → Card) :
    regGet (regModify st k f) k = (regGet st k).map f := by
  induction st with
  | nil => simp [regModify, regGet]
  | cons e rest ih =>
    rcases e with ⟨k2, c2⟩
    by_cases h : k2 = k
    · subst h; simp [regModify, regGet]
    · simp [regModify, regGet, h, ih]

theorem regGet_regModify_ne (st : Registry) {k k2 : Nat} (h : k2 ≠ k) (f : Card → Card) :
    regGet (regModify st k f) k2 = regGet st k2 := by
  induction st with
  | nil => simp [regModify, regGet]
  | cons e rest ih =>
    rcases e with ⟨k3, c3⟩
    by_cases h3 : k3 = k
    · subst h3
      simp [regModify, regGet, Ne.symm h]
    · by_cases h2 : k3 = k2
      · subst h2; simp [regModify, regGet, h3]
      · simp [regModify, regGet, h3, h2, ih]

theorem regModify_eq_self (st : Registry) (k : Nat) (f : Card → Card)
    (h : ∀ c, regGet st k = some c → f c = c) : regModify st k f = st := by
  induction st with
  | nil => simp [regModify]
  | cons e rest ih =>
    rcases e with ⟨k2, c2⟩
    by_cases h2 : k2 = k
    · subst h2
      have := h c2 (by simp [regGet])
      simp [regModify, this]
    · have := ih (fun c hc => h c (by simp [regGet, h2, hc]))
      simp [regModify, h2, this]

theorem keys_regModify (st : Registry) (k : Nat) (f : Card → Card) :
    (regModify st k f).map (fun e => e.1) = st.map (fun e => e.1) := by
  induction st with
  | nil => simp [regModify]
  | cons e rest ih =>
    rcases e with ⟨k2, c2⟩
    by_cases h : k2 = k
    · subst h; simp [regModify]
    · simp [regModify, h, ih]

theorem keys_regSet (st : Registry) (k : Nat) (c : Card) :
    (regSet st k c).map (fun e => e.1) =
      if k ∈ st.map (fun e => e.1) then st.map (fun e => e.1)
      else st.map (fun e => e.1) ++ [k] := by
  induction st with
  | nil => simp [regSet]
  | cons e rest ih =>
    rcases e with ⟨k2, c2⟩
    by_cases h2 : k2 = k
    · subst h2
      simp [regSet]
    · simp only [regSet, if_neg h2, List.map_cons, ih, List.mem_cons]
      by_cases hm : k ∈ rest.map (fun e => e.1)
      · simp [hm, Ne.symm h2]
      · simp [hm, Ne.symm h2]

theorem regGet_eq_none_iff {st : Registry} {k : Nat} :
    regGet st k = none ↔ k ∉ st.map (fun e => e.1) := by
  induction st with
  | nil => simp [regGet]
  | cons e rest ih =>
    rcases e with ⟨k2, c2⟩
    by_cases h : k2 = k
    · subst h; simp [regGet]
    · simp [regGet, h, ih, Ne.symm h]

theorem nodupKeys_regSet {st : Registry} {k : Nat} {c : Card} (h : nodupKeys st) :
    nodupKeys (regSet st k c) := by
  rw [nodupKeys, keys_regSet]
  by_cases hm : k ∈ st.map (fun e => e.1)
  · simpa [hm] using h
  · rw [if_neg hm]
    simp only [List.nodup_append, List.nodup_singleton]
    exact ⟨h, trivial, by simpa using fun hk => hm hk⟩

theorem nodupKeys_regModify {st : Registry} {k : Nat} {f : Card → Card} (h : nodupKeys st) :
    nodupKeys (regModify st k f) := by
  simpa [nodupKeys, keys_regModify] using h

theorem regWF_regSet {st : Registry} {k : Nat} {c : Card} (h : regWF st)
    (hc : c.notionId = k) : regWF (regSet st k c) := by
  intro k2 c2 hc2
  by_cases h2 : k2 = k
  · subst h2
    rw [regGet_regSet_self] at hc2
    cases hc2
    exact hc
  · rw [regGet_regSet_ne st h2] at hc2
    exact h k2 c2 hc2

theorem regWF_regModify {st : Registry} {k : Nat} {f : Card → Card} (h : regWF st)
    (hf : ∀ c, (f c).notionId = c.notionId) : regWF (regModify st k f) := by
  intro k2 c2 hc2
  by_cases h2 : k2 = k
  · subst h2
    rw [regGet_regModify_self] at hc2
    cases hg : regGet st k2 with
    | none => rw [hg] at hc2; cases hc2
    | some c3 =>
      rw [hg] at hc2
      have hfc : f c3 = c2 := by simpa using hc2
      subst hfc
      rw [hf c3]
      exact h k2 c3 hg
  · rw [regGet_regModify_ne st h2] at hc2
    exact h k2 c2 hc2

theorem round2Reg_regSet {st : Registry} {k : Nat} {c : Card} (h : Round2Reg st)
    (hc : Round2 c.localHours ∧ Round2 c.childHours) : Round2Reg (regSet st k c) := by
  intro k2 c2 hc2
  by_cases h2 : k2 = k
  · subst h2
    rw [regGet_regSet_self] at hc2
    cases hc2
    exact hc
  · rw [regGet_regSet_ne st h2] at hc2
    exact h k2 c2 hc2

theorem round2Reg_regModify {st : Registry} {k : Nat} {f : Card → Card} (h : Round2Reg st)
    (hf : ∀ c, regGet st k = some c → Round2 (f c).localHours ∧ Round2 (f c).childHours) :
    Round2Reg (regModify st k f) := by
  intro k2 c2 hc2
  by_cases h2 : k2 = k
  · subst h2
    rw [regGet_regModify_self] at hc2
    cases hg : regGet st k2 with
    | none => rw [hg] at hc2; cases hc2
    | some c3 =>
      rw [hg] at hc2
      have hfc : f c3 = c2 := by simpa using hc2
      subst hfc
      exact hf c3 hg
  · rw [regGet_regModify_ne st h2] at hc2
    exact h k2 c2 hc2

/-! ### Round2 lemmas -/

theorem Round2_zero : Round2 0 := ⟨0, by norm_num⟩

theorem Round2_add {a b : ℚ} (h1 : Round2 a) (h2 : Round2 b) : Round2 (a + b) := by
  obtain ⟨z1, rfl⟩ := h1
  obtain ⟨z2, rfl⟩ := h2
  exact ⟨z1 + z2, by push_cast; ring⟩

theorem round2_eq_self {q : ℚ} (h : Round2 q) : round2 q = q := by
  obtain ⟨z, rfl⟩ := h
  rw [round2]
  rw [div_mul_cancel₀ (z : ℚ) (by norm_num : (100 : ℚ) ≠ 0)]
  rw [round_intCast]

/-! ### getOrCreateById lemmas -/

theorem getOrCreateById_hit {w : World} {st : Registry} {id : Nat} {c : Card}
    (h : regGet st id = some c) : getOrCreateById w st id = (st, some c, []) := by
  simp [getOrCreateById, h]

theorem getOrCreateById_spec (w : World) (st : Registry) (id : Nat) :
    (∃ c, regGet st id = some c ∧ getOrCreateById w st id = (st, some c, [])) ∨
    (regGet st id = none ∧ resolvableW w id = false ∧
      (getOrCreateById w st id).1 = st ∧ (getOrCreateById w st id).2.1 = none ∧
      (∀ e ∈ (getOrCreateById w st id).2.2, ∃ k, e = Event.fetchPage k)) ∨
    (regGet st id = none ∧ resolvableW w id = true ∧
      ∃ card pid client, w.pages id = some card ∧ card.projectIds.head? = some pid ∧
        w.clientPages pid = some client ∧
        getOrCreateById w st id =
          (regSet st id (newCardFrom id card client (w.hoursByName card.title client.name)),
           some (newCardFrom id card client (w.hoursByName card.title client.name)),
           [Event.fetchPage id, Event.fetchPage pid])) := by
  cases hg : regGet st id with
  | some c => exact Or.inl ⟨c, rfl, getOrCreateById_hit hg⟩
  | none =>
    cases hp : w.pages id with
    | none =>
      refine Or.inr (Or.inl ⟨rfl, ?_, ?_, ?_, ?_⟩)
      · simp [resolvableW, hp]
      · simp [getOrCreateById, hg, hp]
      · simp [getOrCreateById, hg, hp]
      · intro e he
        simp [getOrCreateById, hg, hp] at he
        exact ⟨id, he⟩
    | some card =>
      cases hh : card.projectIds.head? with
      | none =>
        refine Or.inr (Or.inl ⟨rfl, ?_, ?_, ?_, ?_⟩)
        · simp [resolvableW, hp, hh]
        · simp [getOrCreateById, hg, hp, hh]
        · simp [getOrCreateById, hg, hp, hh]
        · intro e he
          simp [getOrCreateById, hg, hp, hh] at he
          exact ⟨id, he⟩
      | some pid =>
        cases hc : w.clientPages pid with
        | none =>
          refine Or.inr (Or.inl ⟨rfl, ?_, ?_, ?_, ?_⟩)
          · simp [resolvableW, hp, hh, hc]
          · simp [getOrCreateById, hg, hp, hh, hc]
          · simp [getOrCreateById, hg, hp, hh, hc]
          · intro e he
            simp [getOrCreateById, hg, hp, hh, hc] at he
            rcases he with rfl | rfl
            · exact ⟨id, rfl⟩
            · exact ⟨pid, rfl⟩
        | some client =>
          exact Or.inr (Or.inr ⟨rfl, by simp [resolvableW, hp, hh, hc],
            card, pid, client, rfl, hh, hc, by simp [getOrCreateById, hg, hp, hh, hc]⟩)

theorem getOrCreateById_preserve {w : World} {st : Registry} {id k : Nat} {c : Card}
    (h : regGet st k = some c) : regGet (getOrCreateById w st id).1 k = some c := by
  rcases getOrCreateById_spec w st id with ⟨c2, hg, heq⟩ | ⟨hg, _, hst, _, _⟩ |
    ⟨hg, _, card, pid, client, _, _, _, heq⟩
  · rw [heq]; exact h
  · rw [hst]; exact h
  · rw [heq]
    have hne : k ≠ id := fun he => by rw [he, hg] at h; cases h
    simp only []
    rw [regGet_regSet_ne st hne]
    exact h

theorem getOrCreateById_absent {w : World} {st : Registry} {id k : Nat}
    (hr : resolvableW w k = false) (h : regGet st k = none) :
    regGet (getOrCreateById w st id).1 k = none := by
  rcases getOrCreateById_spec w st id with ⟨c2, hg, heq⟩ | ⟨hg, _, hst, _, _⟩ |
    ⟨hg, hres, card, pid, client, _, _, _, heq⟩
  · rw [heq]; exact h
  · rw [hst]; exact h
  · rw [heq]
    have hne : k ≠ id := fun he => by rw [he, hres] at hr; cases hr
    simp only []
    rw [regGet_regSet_ne st hne]
    exact h

theorem getOrCreateById_events {w : World} {st : Registry} {id : Nat} :
    ∀ e ∈ (getOrCreateById w st id).2.2, ∃ k, e = Event.fetchPage k := by
  intro e he
  rcases getOrCreateById_spec w st id with ⟨c2, hg, heq⟩ | ⟨hg, _, _, _, hev⟩ |
    ⟨hg, _, card, pid, client, _, _, _, heq⟩
  · rw [heq] at he; cases he
  · exact hev e he
  · rw [heq] at he
    simp at he
    rcases he with rfl | rfl
    · exact ⟨id, rfl⟩
    · exact ⟨pid, rfl⟩

theorem getOrCreateById_result_mem {w : World} {st : Registry} {id : Nat} {c : Card}
    (h : (getOrCreateById w st id).2.1 = some c) :
    regGet (getOrCreateById w st id).1 id = some c := by
  rcases getOrCreateById_spec w st id with ⟨c2, hg, heq⟩ | ⟨hg, _, hst, hnone, _⟩ |
    ⟨hg, _, card, pid, client, _, _, _, heq⟩
  · rw [heq] at h ⊢
    simp at h
    subst h
    exact hg
  · rw [hnone] at h; cases h
  · rw [heq] at h ⊢
    simp at h
    subst h
    simp only []
    exact regGet_regSet_self st id _

theorem getOrCreateById_result_notionId {w : World} {st : Registry} {id : Nat} {c : Card}
    (hwf : regWF st) (h : (getOrCreateById w st id).2.1 = some c) : c.notionId = id := by
  rcases getOrCreateById_spec w st id with ⟨c2, hg, heq⟩ | ⟨hg, _, hst, hnone, _⟩ |
    ⟨hg, _, card, pid, client, _, _, _, heq⟩
  · rw [heq] at h
    simp at h
    subst h
    exact hwf id _ hg
  · rw [hnone] at h; cases h
  · rw [heq] at h
    simp at h
    subst h
    rfl

theorem getOrCreateById_result_round2 {w : World} {st : Registry} {id : Nat} {c : Card}
    (hR : Round2World w) (hreg : Round2Reg st) (h : (getOrCreateById w st id).2.1 = some c) :
    Round2 c.localHours ∧ Round2 c.childHours := by
  rcases getOrCreateById_spec w st id with ⟨c2, hg, heq⟩ | ⟨hg, _, hst, hnone, _⟩ |
    ⟨hg, _, card, pid, client, _, _, _, heq⟩
  · rw [heq] at h
    simp at h
    subst h
    exact hreg id _ hg
  · rw [hnone] at h; cases h
  · rw [heq] at h
    simp at h
    subst h
    exact ⟨hR card.title client.name, Round2_zero⟩

theorem getOrCreateById_regWF {w : World} {st : Registry} {id : Nat} (hwf : regWF st) :
    regWF (getOrCreateById w st id).1 := by
  rcases getOrCreateById_spec w st id with ⟨c2, hg, heq⟩ | ⟨hg, _, hst, _, _⟩ |
    ⟨hg, _, card, pid, client, _, _, _, heq⟩
  · rw [heq]; exact hwf
  · rw [hst]; exact hwf
  · rw [heq]
    exact regWF_regSet hwf rfl

theorem getOrCreateById_round2Reg {w : World} {st : Registry} {id : Nat}
    (hR : Round2World w) (hreg : Round2Reg st) : Round2Reg (getOrCreateById w st id).1 := by
  rcases getOrCreateById_spec w st id with ⟨c2, hg, heq⟩ | ⟨hg, _, hst, _, _⟩ |
    ⟨hg, _, card, pid, client, _, _, _, heq⟩
  · rw [heq]; exact hreg
  · rw [hst]; exact hreg
  · rw [heq]
    exact round2Reg_regSet hreg ⟨hR card.title client.name, Round2_zero⟩

theorem getOrCreateById_nodup {w : World} {st : Registry} {id : Nat} (h : nodupKeys st) :
    nodupKeys (getOrCreateById w st id).1 := by
  rcases getOrCreateById_spec w st id with ⟨c2, hg, heq⟩ | ⟨hg, _, hst, _, _⟩ |
    ⟨hg, _, card, pid, client, _, _, _, heq⟩
  · rw [heq]; exact h
  · rw [hst]; exact h
  · rw [heq]
    exact nodupKeys_regSet h

/-! ### getOrCreateAll lemmas -/

theorem getOrCreateAll_preserve {w : World} :
    ∀ (ids : List Nat) (st : Registry) {k : Nat} {c : Card}, regGet st k = some c →
      regGet (getOrCreateAll w st ids).1 k = some c := by
  intro ids
  induction ids with
  | nil => intro st k c h; exact h
  | cons id rest ih =>
    intro st k c h
    simp only [getOrCreateAll]
    exact ih _ (getOrCreateById_preserve h)

theorem getOrCreateAll_absent {w : World} :
    ∀ (ids : List Nat) (st : Registry) {k : Nat}, resolvableW w k = false →
      regGet st k = none → regGet (getOrCreateAll w st ids).1 k = none := by
  intro ids
  induction ids with
  | nil => intro st k hr h; exact h
  | cons id rest ih =>
    intro st k hr h
    simp only [getOrCreateAll]
    exact ih _ hr (getOrCreateById_absent hr h)

theorem getOrCreateAll_regWF {w : World} :
    ∀ (ids : List Nat) (st : Registry), regWF st → regWF (getOrCreateAll w st ids).1 := by
  intro ids
  induction ids with
  | nil => intro st h; exact h
  | cons id rest ih =>
    intro st h
    simp only [getOrCreateAll]
    exact ih _ (getOrCreateById_regWF h)

theorem getOrCreateAll_round2Reg {w : World} (hR : Round2World w) :
    ∀ (ids : List Nat) (st : Registry), Round2Reg st → Round2Reg (getOrCreateAll w st ids).1 := by
  intro ids
  induction ids with
  | nil => intro st h; exact h
  | cons id rest ih =>
    intro st h
    simp only [getOrCreateAll]
    exact ih _ (getOrCreateById_round2Reg hR h)

theorem getOrCreateAll_nodup {w : World} :
    ∀ (ids : List Nat) (st : Registry), nodupKeys st → nodupKeys (getOrCreateAll w st ids).1 := by
  intro ids
  induction ids with
  | nil => intro st h; exact h
  | cons id rest ih =>
    intro st h
    simp only [getOrCreateAll]
    exact ih _ (getOrCreateById_nodup h)

theorem getOrCreateAll_events {w : World} :
    ∀ (ids : List Nat) (st : Registry), ∀ e ∈ (getOrCreateAll w st ids).2.2,
      ∃ k, e = Event.fetchPage k := by
  intro ids
  induction ids with
  | nil => intro st e he; cases he
  | cons id rest ih =>
    intro st e he
    simp only [getOrCreateAll] at he
    rcases List.mem_append.1 he with h1 | h2
    · exact getOrCreateById_events e h1
    · exact ih _ e h2

theorem getOrCreateAll_results_notionId {w : World} :
    ∀ (ids : List Nat) (st : Registry), regWF st →
      ∀ c : Card, some c ∈ (getOrCreateAll w st ids).2.1 → c.notionId ∈ ids := by
  intro ids
  induction ids with
  | nil => intro st hwf c h; cases h
  | cons id rest ih =>
    intro st hwf c h
    simp only [getOrCreateAll] at h
    rcases List.mem_cons.1 h with h1 | h2
    · rw [getOrCreateById_result_notionId hwf h1.symm]
      exact List.mem_cons_self id rest
    · exact List.mem_cons.2 (Or.inr (ih _ (getOrCreateById_regWF hwf) c h2))

theorem getOrCreateAll_results_round2 {w : World} (hR : Round2World w) :
    ∀ (ids : List Nat) (st : Registry), Round2Reg st →
      ∀ c : Card, some c ∈ (getOrCreateAll w st ids).2.1 →
        Round2 c.localHours ∧ Round2 c.childHours := by
  intro ids
  induction ids with
  | nil => intro st hreg c h; cases h
  | cons id rest ih =>
    intro st hreg c h
    simp only [getOrCreateAll] at h
    rcases List.mem_cons.1 h with h1 | h2
    · exact getOrCreateById_result_round2 hR hreg h1.symm
    · exact ih _ (getOrCreateById_round2Reg hR hreg) c h2

/-! ### childrenHours -/

theorem childrenHours_round2 {cards : List (Option Card)}
    (h : ∀ c : Card, some c ∈ cards → Round2 c.localHours ∧ Round2 c.childHours) :
    Round2 (childrenHours cards) := by
  have haux : ∀ (cs : List (Option Card)) (acc : ℚ),
      (∀ c : Card, some c ∈ cs → Round2 c.localHours ∧ Round2 c.childHours) → Round2 acc →
      Round2 (cs.foldl (fun acc c =>
        match c with
        | some c2 => acc + (c2.localHours + c2.childHours)
        | none => acc) acc) := by
    intro cs
    induction cs with
    | nil => intro acc h2 hacc; exact hacc
    | cons c cs ih =>
      intro acc h2 hacc
      rcases c with - | c2
      · exact ih acc (fun c hc => h2 c (by simp [hc])) hacc
      · have hc2 := h2 c2 (by simp)
        exact ih _ (fun c hc => h2 c (by simp [hc]))
          (Round2_add hacc (Round2_add hc2.1 hc2.2))
  exact haux cards 0 h Round2_zero

theorem stepOk_id (w : World) (st : Registry) : StepOk w st (w, st, [], []) := by
  refine ⟨?_, ?_, ?_, ?_, rfl, rfl, rfl, id, id, fun _ h => h⟩
  · intro k c _ hc; exact hc
  · intro k h hm; cases hm
  · intro k hm; cases hm
  · intro k _; rfl

theorem stepOk_fetch (w : World) (st : Registry) (n : Nat) :
    StepOk w st (w, st, [Event.fetchPage n], [n]) := by
  refine ⟨?_, ?_, ?_, ?_, rfl, rfl, rfl, id, id, fun _ h => h⟩
  · intro k c _ hc; exact hc
  · intro k h hm; simp at hm
  · intro k hm; simp at hm
  · intro k _; rfl

theorem pmapOf_writeTimeSpent (w : World) (n : Nat) (q : ℚ) :
    pmapOf (writeTimeSpent w n q) = pmapOf w := by
  funext k
  simp only [pmapOf, writeTimeSpent]
  by_cases hk : k = n
  · subst hk
    cases w.pages k <;> simp
  · simp [hk]

theorem pages_writeTimeSpent_ne {w : World} {n k : Nat} {q : ℚ} (h : k ≠ n) :
    (writeTimeSpent w n q).pages k = w.pages k := by
  simp [writeTimeSpent, h]

theorem stepOk_comp {w : World} {st : Registry}
    {r1 r2 : World × Registry × List Event × List Nat}
    (S1 : StepOk w st r1) (S2 : StepOk r1.1 r1.2.1 r2) :
    StepOk w st (r2.1, r2.2.1, r1.2.2.1 ++ r2.2.2.1, r1.2.2.2 ++ r2.2.2.2) := by
  refine ⟨?_, ?_, ?_, ?_, ?_, ?_, ?_, ?_, ?_, ?_⟩
  · intro k c hk hc
    exact S2.preserve k c (fun h => hk (List.mem_append.2 (Or.inr h)))
      (S1.preserve k c (fun h => hk (List.mem_append.2 (Or.inl h))) hc)
  · intro k h hm
    rcases List.mem_append.1 hm with h1 | h2
    · exact List.mem_append.2 (Or.inl (S1.writesVis k h h1))
    · exact List.mem_append.2 (Or.inr (S2.writesVis k h h2))
  · intro k hm
    rcases List.mem_append.1 hm with h1 | h2
    · exact S1.noErrors k h1
    · exact S2.noErrors k h2
  · intro k hk
    rw [S2.pagesOff k (fun h => hk (List.mem_append.2 (Or.inr h)))]
    exact S1.pagesOff k (fun h => hk (List.mem_append.2 (Or.inl h)))
  · rw [S2.pmapEq, S1.pmapEq]
  · rw [S2.clientEq, S1.clientEq]
  · rw [S2.hoursEq, S1.hoursEq]
  · exact fun h => S2.wf (S1.wf h)
  · exact fun h => S2.nodup (S1.nodup h)
  · intro hRw hreg
    refine S2.round2 ?_ (S1.round2 hRw hreg)
    intro a b
    rw [S1.hoursEq]
    exact hRw a b

theorem foldParents_stepOk
    (upd : World → Registry → Nat → Option (World × Registry × List Event × List Nat))
    (hupd : ∀ w st n r, upd w st n = some r → StepOk w st r) :
    ∀ (cards : List (Option Card)) (w : World) (st : Registry) r,
      foldParents upd w st cards = some r → StepOk w st r := by
  intro cards
  induction cards with
  | nil =>
    intro w st r h
    simp only [foldParents] at h
    injection h with h2
    rw [← h2]
    exact stepOk_id w st
  | cons p rest ih =>
    intro w st r h
    cases p with
    | none =>
      simp only [foldParents] at h
      exact ih w st r h
    | some p =>
      simp only [foldParents] at h
      split at h
      · cases h
      · rename_i r1 hr1
        split at h
        · cases h
        · rename_i r2 hr2
          injection h with h2
          rw [← h2]
          exact stepOk_comp (hupd w st p.notionId r1 hr1) (ih r1.1 r1.2.1 r2 hr2)

theorem updateGo_stepOk :
    ∀ (f : Nat) (w : World) (st : Registry) (n : Nat) r,
      updateGo f w st n = some r → StepOk w st r := by
  intro f
  induction f with
  | zero => intro w st n r h; cases h
  | succ f ih =>
    intro w st n r h
    cases hp : w.pages n with
    | none =>
      simp only [updateGo, hp] at h
      injection h with h2
      rw [← h2]
      exact stepOk_fetch w st n
    | some data =>
      cases hc : regGet st n with
      | none =>
        simp only [updateGo, hp, hc] at h
        injection h with h2
        rw [← h2]
        exact stepOk_fetch w st n
      | some c =>
        simp only [updateGo, hp, hc] at h
        split at h
        · cases h
        · rename_i r3 hF
          set st1 := regModify st n
            (fun c0 => { c0 with localHours := w.hoursByName c.taskName c.projectName })
            with hst1
          set r1 := getOrCreateAll w st1 data.childIds with hr1
          set st3 := regModify r1.1 n
            (fun c0 => { c0 with childHours := childrenHours r1.2.1 }) with hst3
          set r2p := getOrCreateAll w st3 data.parentIds with hr2p
          have S3 : StepOk w r2p.1 r3 :=
            foldParents_stepOk (updateGo f) (fun w2 st2 n2 rr hh => ih w2 st2 n2 rr hh)
              r2p.2.1 w r2p.1 r3 hF
          have hPre : ∀ k c2, k ≠ n → regGet st k = some c2 → regGet r2p.1 k = some c2 := by
            intro k c2 hk hc2
            rw [hr2p]
            apply getOrCreateAll_preserve
            rw [hst3, regGet_regModify_ne _ hk]
            rw [hr1]
            apply getOrCreateAll_preserve
            rw [hst1, regGet_regModify_ne _ hk]
            exact hc2
          have hWf : regWF st → regWF r2p.1 := by
            intro hwf
            rw [hr2p]
            apply getOrCreateAll_regWF
            rw [hst3]
            refine regWF_regModify ?_ (fun c0 => rfl)
            rw [hr1]
            apply getOrCreateAll_regWF
            rw [hst1]
            exact regWF_regModify hwf (fun c0 => rfl)
          have hNodup : nodupKeys st → nodupKeys r2p.1 := by
            intro hnd
            rw [hr2p]
            apply getOrCreateAll_nodup
            rw [hst3]
            apply nodupKeys_regModify
            rw [hr1]
            apply getOrCreateAll_nodup
            rw [hst1]
            exact nodupKeys_regModify hnd
          have hRnd : Round2World w → Round2Reg st → Round2Reg r2p.1 := by
            intro hRw hreg
            have hreg1 : Round2Reg st1 := by
              rw [hst1]
              apply round2Reg_regModify hreg
              intro c0 hc0
              exact ⟨hRw c.taskName c.projectName, (hreg n c0 hc0).2⟩
            have hregB : Round2Reg r1.1 := by
              rw [hr1]
              exact getOrCreateAll_round2Reg hRw _ _ hreg1
            have hreg3 : Round2Reg st3 := by
              rw [hst3]
              apply round2Reg_regModify hregB
              intro c0 hc0
              refine ⟨(hregB n c0 hc0).1, ?_⟩
              apply childrenHours_round2
              intro c2 hc2
              rw [hr1] at hc2
              exact getOrCreateAll_results_round2 hRw _ _ hreg1 c2 hc2
            rw [hr2p]
            exact getOrCreateAll_round2Reg hRw _ _ hreg3
          have hEv1 : ∀ e ∈ r1.2.2, ∃ k, e = Event.fetchPage k := by
            rw [hr1]; exact getOrCreateAll_events _ _
          have hEv2 : ∀ e ∈ r2p.2.2, ∃ k, e = Event.fetchPage k := by
            rw [hr2p]; exact getOrCreateAll_events _ _
          split at h
          · -- skip branch
            injection h with h2
            rw [← h2]
            refine ⟨?_, ?_, ?_, ?_, S3.pmapEq, S3.clientEq, S3.hoursEq, ?_, ?_, ?_⟩
            · intro k c2 hk hc2
              simp only [List.mem_cons] at hk
              push_neg at hk
              exact S3.preserve k c2 hk.2 (hPre k c2 hk.1 hc2)
            · intro k hq hm
              simp only [List.mem_cons, List.mem_append] at hm
              rcases hm with hm | (hm | hm) | hm
              · cases hm
              · obtain ⟨k2, hk2⟩ := hEv1 _ hm; cases hk2
              · obtain ⟨k2, hk2⟩ := hEv2 _ hm; cases hk2
              · exact List.mem_cons.2 (Or.inr (S3.writesVis k hq hm))
            · intro k hm
              simp only [List.mem_cons, List.mem_append] at hm
              rcases hm with hm | (hm | hm) | hm
              · cases hm
              · obtain ⟨k2, hk2⟩ := hEv1 _ hm; cases hk2
              · obtain ⟨k2, hk2⟩ := hEv2 _ hm; cases hk2
              · exact S3.noErrors k hm
            · intro k hk
              simp only [List.mem_cons] at hk
              push_neg at hk
              exact S3.pagesOff k hk.2
            · exact fun hwf => S3.wf (hWf hwf)
            · exact fun hnd => S3.nodup (hNodup hnd)
            · exact fun hRw hreg => S3.round2 hRw (hRnd hRw hreg)
          · -- write branch
            injection h with h2
            rw [← h2]
            refine ⟨?_, ?_, ?_, ?_, ?_, ?_, ?_, ?_, ?_, ?_⟩
            · intro k c2 hk hc2
              simp only [List.mem_cons] at hk
              push_neg at hk
              exact S3.preserve k c2 hk.2 (hPre k c2 hk.1 hc2)
            · intro k hq hm
              simp only [List.mem_cons, List.mem_append, List.mem_singleton] at hm
              rcases hm with (hm | (hm | hm) | hm) | (hm | hm)
              · cases hm
              · obtain ⟨k2, hk2⟩ := hEv1 _ hm; cases hk2
              · obtain ⟨k2, hk2⟩ := hEv2 _ hm; cases hk2
              · exact List.mem_cons.2 (Or.inr (S3.writesVis k hq hm))
              · injection hm with hm1 hm2
                exact List.mem_cons.2 (Or.inl hm1)
              · cases hm
            · intro k hm
              simp only [List.mem_cons, List.mem_append, List.mem_singleton] at hm
              rcases hm with (hm | (hm | hm) | hm) | (hm | hm)
              · cases hm
              · obtain ⟨k2, hk2⟩ := hEv1 _ hm; cases hk2
              · obtain ⟨k2, hk2⟩ := hEv2 _ hm; cases hk2
              · exact S3.noErrors k hm
              · cases hm
              · cases hm
            · intro k hk
              simp only [List.mem_cons] at hk
              push_neg at hk
              rw [pages_writeTimeSpent_ne hk.1]
              exact S3.pagesOff k hk.2
            · rw [pmapOf_writeTimeSpent, S3.pmapEq]
            · rw [show (writeTimeSpent r3.1 n (round2 (hoursOf r3.2.1 n))).clientPages =
                r3.1.clientPages from rfl, S3.clientEq]
            · rw [show (writeTimeSpent r3.1 n (round2 (hoursOf r3.2.1 n))).hoursByName =
                r3.1.hoursByName from rfl, S3.hoursEq]
            · exact fun hwf => S3.wf (hWf hwf)
            · exact fun hnd => S3.nodup (hNodup hnd)
            · exact fun hRw hreg => S3.round2 hRw (hRnd hRw hreg)

theorem selfloop_none : ∀ (f : Nat) (st : Registry),
    (∃ c : Card, regGet st 5 = some c ∧ c.notionId = 5) →
    updateGo f selfWorld st 5 = none := by
  intro f
  induction f with
  | zero => intro st _; rfl
  | succ f ih =>
    rintro st ⟨c, hc, hid⟩
    have hp : selfWorld.pages 5 = some selfCard := rfl
    simp only [updateGo, hp, hc]
    rw [show selfCard.childIds = [] from rfl, show selfCard.parentIds = [5] from rfl]
    simp only [getOrCreateAll]
    set st1 := regModify st 5
      (fun c0 => { c0 with localHours := selfWorld.hoursByName c.taskName c.projectName })
      with hst1
    set st3 := regModify st1 (5 : Nat)
      (fun c0 => { c0 with childHours := childrenHours [] }) with hst3
    obtain ⟨c1, hc1, hid1⟩ : ∃ c1 : Card, regGet st1 5 = some c1 ∧ c1.notionId = 5 := by
      rw [hst1, regGet_regModify_self, hc]
      exact ⟨_, rfl, hid⟩
    obtain ⟨c3, hc3, hid3⟩ : ∃ c3 : Card, regGet st3 5 = some c3 ∧ c3.notionId = 5 := by
      rw [hst3, regGet_regModify_self, hc1]
      exact ⟨_, rfl, hid1⟩
    rw [getOrCreateById_hit hc3]
    simp only [foldParents]
    rw [hid3]
    rw [ih st3 ⟨c3, hc3, hid3⟩]

/-- Claim C1, counterexample: the concrete graph in which page 5 lists itself
as its own "Parent task". `update` on it exhausts every recursion-depth bound
(the registry memoizes the instance but `p?.update()` re-enters it anyway), so
the source recursion does not terminate, contradicting the claim that `update`
terminates for every parent/child relation graph. -/
theorem update_self_parent_diverges :
    pmapOf selfWorld 5 = [5] ∧ ¬ UpdateTerminates selfWorld selfRegistry 5 := by
  refine ⟨rfl, ?_⟩
  rintro ⟨f, hf⟩
  rw [selfloop_none f selfRegistry ⟨_, rfl, rfl⟩] at hf
  cases hf

theorem foldParents_isSome (pm : Nat → List Nat) (targets : List Nat)
    (upd : World → Registry → Nat → Option (World × Registry × List Event × List Nat))
    (hOk : ∀ w st n r, upd w st n = some r → StepOk w st r)
    (hT : ∀ p ∈ targets, ∀ (w : World) (st : Registry), pmapOf w = pm → regWF st →
      (upd w st p).isSome) :
    ∀ (cards : List (Option Card)) (w : World) (st : Registry),
      (∀ c : Card, some c ∈ cards → c.notionId ∈ targets) → pmapOf w = pm → regWF st →
      (foldParents upd w st cards).isSome := by
  intro cards
  induction cards with
  | nil => intro w st _ _ _; simp [foldParents]
  | cons p rest ih =>
    intro w st hmem hpm hwf
    cases p with
    | none =>
      simp only [foldParents]
      exact ih w st (fun c hc => hmem c (by simp [hc])) hpm hwf
    | some p =>
      simp only [foldParents]
      have h1 : (upd w st p.notionId).isSome := hT p.notionId (hmem p (by simp)) w st hpm hwf
      cases hu : upd w st p.notionId with
      | none => rw [hu] at h1; cases h1
      | some r1 =>
        have S1 := hOk w st p.notionId r1 hu
        have h2 := ih r1.1 r1.2.1 (fun c hc => hmem c (by simp [hc]))
          (by rw [S1.pmapEq, hpm]) (S1.wf hwf)
        cases hf2 : foldParents upd r1.1 r1.2.1 rest with
        | none => rw [hf2] at h2; cases h2
        | some r2 => simp [hf2]

theorem updateGo_terminates_aux (pm : Nat → List Nat) :
    ∀ (d n : Nat), DepthBounded pm d n → ∀ (w : World) (st : Registry),
      pmapOf w = pm → regWF st → (updateGo d w st n).isSome := by
  intro d n hdb
  induction hdb with
  | step hpar ih =>
    rename_i d n
    intro w st hpm hwf
    cases hp : w.pages n with
    | none => simp [updateGo, hp]
    | some data =>
      cases hc : regGet st n with
      | none => simp [updateGo, hp, hc]
      | some c =>
        simp only [updateGo, hp, hc]
        set st1 := regModify st n
          (fun c0 => { c0 with localHours := w.hoursByName c.taskName c.projectName })
          with hst1
        set r1 := getOrCreateAll w st1 data.childIds with hr1
        set st3 := regModify r1.1 n
          (fun c0 => { c0 with childHours := childrenHours r1.2.1 }) with hst3
        set r2p := getOrCreateAll w st3 data.parentIds with hr2p
        have hwf3 : regWF st3 := by
          rw [hst3]
          refine regWF_regModify ?_ (fun c0 => rfl)
          rw [hr1]
          apply getOrCreateAll_regWF
          rw [hst1]
          exact regWF_regModify hwf (fun c0 => rfl)
        have hwf4 : regWF r2p.1 := by
          rw [hr2p]
          exact getOrCreateAll_regWF _ _ hwf3
        have hparlist : data.parentIds = pm n := by
          have h2 : pmapOf w n = data.parentIds := by simp [pmapOf, hp]
          rw [← h2, hpm]
        have hmemT : ∀ c2 : Card, some c2 ∈ r2p.2.1 → c2.notionId ∈ pm n := by
          intro c2 hc2
          rw [← hparlist]
          rw [hr2p] at hc2
          exact getOrCreateAll_results_notionId _ _ hwf3 c2 hc2
        have hfold : (foldParents (updateGo d) w r2p.1 r2p.2.1).isSome := by
          refine foldParents_isSome pm (pm n) (updateGo d)
            (fun w2 st2 n2 rr hh => updateGo_stepOk d w2 st2 n2 rr hh)
            (fun p hp2 w2 st2 hpm2 hwf2 => ih p hp2 w2 st2 hpm2 hwf2)
            r2p.2.1 w r2p.1 hmemT hpm hwf4
        cases hF : foldParents (updateGo d) w r2p.1 r2p.2.1 with
        | none => rw [hF] at hfold; cases hfold
        | some r3 =>
          split
          · rename_i heq
            cases heq
          · split <;> simp

/-- Claim C1 (amended): `update` terminates whenever every chain of "Parent
task" references starting from the node is bounded in length (in particular on
every acyclic parent graph): with a depth bound `d` on the parent chains, fuel
`d` suffices for the source recursion. On a graph whose parent references
cycle back — see `update_self_parent_diverges` — no bound suffices and the
recursion does not terminate. -/
theorem update_terminates_of_depth_bounded_parents :
    ∀ (w : World) (st : Registry) (n d : Nat), DepthBounded (pmapOf w) d n → regWF st →
      (updateGo d w st n).isSome :=
  fun w st n d hdb hwf => updateGo_terminates_aux (pmapOf w) d n hdb w st rfl hwf

theorem getOrCreateByName_scan_hit {w : World} {st : Registry} {name project : String} {c : Card}
    (h : scanRegistry st name project = some c) :
    getOrCreateByName w st name project = (st, some c, []) := by
  simp [getOrCreateByName, h]

theorem getOrCreateByName_nodup {w : World} {st : Registry} {name project : String}
    (h : nodupKeys st) : nodupKeys (getOrCreateByName w st name project).1 := by
  simp only [getOrCreateByName]
  split
  · exact h
  · split
    · exact h
    · split
      · exact h
      · split
        · exact h
        · split
          · exact h
          · exact nodupKeys_regSet h

/-- Claim C3: the process-wide registry keeps at most one instance per record
id. `getOrCreate` by id on a registered id returns the cached instance
unchanged, issuing no remote fetch; the by-name path returns a scanned
registry hit unchanged as well; and both creation paths and a whole `update`
run preserve distinctness of the registry's keys. -/
theorem registry_unique_instance_per_id :
    (∀ (w : World) (st : Registry) (id : Nat) (c : Card), regGet st id = some c →
      getOrCreateById w st id = (st, some c, [])) ∧
    (∀ (w : World) (st : Registry) (name project : String) (c : Card),
      scanRegistry st name project = some c →
      getOrCreateByName w st name project = (st, some c, [])) ∧
    (∀ (w : World) (st : Registry) (id : Nat), nodupKeys st →
      nodupKeys (getOrCreateById w st id).1) ∧
    (∀ (w : World) (st : Registry) (name project : String), nodupKeys st →
      nodupKeys (getOrCreateByName w st name project).1) ∧
    (∀ (f : Nat) (w : World) (st : Registry) (n : Nat)
      (r : World × Registry × List Event × List Nat), updateGo f w st n = some r →
      nodupKeys st → nodupKeys r.2.1) :=
  ⟨fun _ _ _ _ h => getOrCreateById_hit h,
   fun _ _ _ _ _ h => getOrCreateByName_scan_hit h,
   fun _ _ _ h => getOrCreateById_nodup h,
   fun _ _ _ _ h => getOrCreateByName_nodup h,
   fun f w st n r h hnd => (updateGo_stepOk f w st n r h).nodup hnd⟩

/-- Claim C3, witness: a registry holding one card under id 3: the by-id and
by-name lookups both return it unchanged, and its key list stays duplicate
free. -/
theorem registry_unique_instance_per_id_witness :
    regGet witnessRegistry 3 = some witnessCard ∧
    getOrCreateById emptyWorld witnessRegistry 3 = (witnessRegistry, some witnessCard, []) ∧
    scanRegistry witnessRegistry "alpha" "acme" = some witnessCard ∧
    getOrCreateByName emptyWorld witnessRegistry "alpha" "acme" =
      (witnessRegistry, some witnessCard, []) ∧
    nodupKeys witnessRegistry :=
  ⟨rfl, registry_unique_instance_per_id.1 _ _ _ _ rfl, by decide,
   registry_unique_instance_per_id.2.1 _ _ _ _ _ (by decide), by unfold nodupKeys; decide⟩

theorem getOrCreateByName_duplicates {w : World} {st : Registry} {name project : String}
    (hscan : scanRegistry st name project = none)
    (hcl : (matchingClients w project).isEmpty = false)
    (hlen : 1 < (matchingCards w (matchingClients w project) name).length) :
    getOrCreateByName w st name project =
      (st, none, [Event.queryDb, Event.queryDb] ++
        (matchingCards w (matchingClients w project) name).map
          (fun tc => Event.writeError tc.1)) := by
  simp [getOrCreateByName, hscan, hcl, hlen]

/-- Claim C9: when the by-name lookup matches more than one existing card
(`tasks.length > 1`), `getOrCreate` marks every matched card with a `sendError`
write, creates nothing, leaves the registry untouched, and returns `null` (the
caller then skips the update for that entry). -/
theorem duplicate_cards_marked_and_skipped :
    ∀ (w : World) (st : Registry) (name project : String),
      scanRegistry st name project = none →
      (matchingClients w project).isEmpty = false →
      1 < (matchingCards w (matchingClients w project) name).length →
      (getOrCreateByName w st name project).2.1 = none ∧
      (getOrCreateByName w st name project).1 = st ∧
      (∀ tc ∈ matchingCards w (matchingClients w project) name,
        Event.writeError tc.1 ∈ (getOrCreateByName w st name project).2.2) ∧
      (∀ e ∈ (getOrCreateByName w st name project).2.2,
        e = Event.queryDb ∨ ∃ tc ∈ matchingCards w (matchingClients w project) name,
          e = Event.writeError tc.1) ∧
      (∀ (k : Nat) (h : ℚ), Event.writeHours k h ∉ (getOrCreateByName w st name project).2.2) := by
  intro w st name project h1 h2 h3
  rw [getOrCreateByName_duplicates h1 h2 h3]
  refine ⟨rfl, rfl, ?_, ?_, ?_⟩
  · intro tc htc
    simp only [List.mem_append, List.mem_map]
    exact Or.inr ⟨tc, htc, rfl⟩
  · intro e he
    simp only [List.mem_append, List.mem_map, List.mem_cons, List.not_mem_nil,
      or_false] at he
    rcases he with (rfl | rfl) | ⟨tc, htc, rfl⟩
    · exact Or.inl rfl
    · exact Or.inl rfl
    · exact Or.inr ⟨tc, htc, rfl⟩
  · intro k h hm
    simp only [List.mem_append, List.mem_map, List.mem_cons, List.not_mem_nil,
      or_false] at hm
    rcases hm with (hm | hm) | ⟨tc, htc, hm⟩ <;> cases hm

/-- Claim C9, witness: a world whose task query returns the same card data
under ids 7 and 8: the by-name path errors both and creates nothing. -/
theorem duplicate_cards_marked_and_skipped_witness :
    (getOrCreateByName dupWorld [] "alpha" "acme").2.1 = none ∧
    (getOrCreateByName dupWorld [] "alpha" "acme").1 = [] ∧
    Event.writeError 7 ∈ (getOrCreateByName dupWorld [] "alpha" "acme").2.2 ∧
    Event.writeError 8 ∈ (getOrCreateByName dupWorld [] "alpha" "acme").2.2 := by
  have h := duplicate_cards_marked_and_skipped dupWorld [] "alpha" "acme" rfl (by decide)
    (by decide)
  exact ⟨h.1, h.2.1, h.2.2.1 (7, dupCardData) (by decide), h.2.2.1 (8, dupCardData) (by decide)⟩

/-- Claim C1 (amended), witness: the empty world's parent graph is depth
bounded at every node, and `update` from an empty registry terminates within
the bound. -/
theorem update_terminates_of_depth_bounded_parents_witness :
    DepthBounded (pmapOf emptyWorld) 1 0 ∧ regWF [] ∧
    (updateGo 1 emptyWorld [] 0).isSome := by
  have hdb : DepthBounded (pmapOf emptyWorld) 1 0 :=
    DepthBounded.step (fun p hp => absurd hp (by simp [pmapOf, emptyWorld]))
  have hwf : regWF ([] : Registry) := by intro k c h; cases h
  exact ⟨hdb, hwf, update_terminates_of_depth_bounded_parents emptyWorld [] 0 1 hdb hwf⟩

end HarvestNotionSync
